import Mathlib

/-
Verification development for the LLM-CL repository (two Python sources:
LLM-CL_Compiler.py and LLM-CL_Encoder_Decoder.py).

The Python code is shallowly embedded: strings are `List Char`, Python
dict/list/str/None values are the inductive `Val` (Python dicts preserve
insertion order, modelled as association lists), and every translated
function mirrors the corresponding Python method statement by statement.
Character classification functions (isspace/isalnum/isdigit) are modelled
on their ASCII fragment, on which they agree with Python's Unicode-aware
versions; every string manipulated by the theorems below is ASCII.
-/

namespace LLMCL

/-! ### Basic character classes and string helpers -/

/-- Opening curly brace character. -/
def obr : Char := Char.ofNat 123

/-- Closing curly brace character. -/
def cbr : Char := Char.ofNat 125

/-- ASCII fragment of Python `str.isspace`. -/
def isSpaceP (c : Char) : Bool :=
  c = ' ' || c = '\t' || c = '\n' || c = '\r' || c = Char.ofNat 11 || c = Char.ofNat 12

/-- ASCII fragment of Python `str.isdigit`. -/
def isDigitP (c : Char) : Bool :=
  '0' ≤ c && c ≤ '9'

/-- ASCII fragment of Python `str.isalnum`. -/
def isAlnumP (c : Char) : Bool :=
  ('0' ≤ c && c ≤ '9') || ('a' ≤ c && c ≤ 'z') || ('A' ≤ c && c ≤ 'Z')

/-- Characters allowed in identifier runs: `char.isalnum() or char == '_'`. -/
def isIdentP (c : Char) : Bool :=
  isAlnumP c || c = '_'

/-- Characters allowed in concept runs: identifier characters plus `~`. -/
def isConceptP (c : Char) : Bool :=
  isAlnumP c || c = '_' || c = '~'

/-- Characters allowed in reference runs: identifier characters plus `.` and `#`. -/
def isRefP (c : Char) : Bool :=
  isAlnumP c || c = '_' || c = '.' || c = '#'

/-- Operator characters `+-*/<>`. -/
def isOpP (c : Char) : Bool :=
  c = '+' || c = '-' || c = '*' || c = '/' || c = '<' || c = '>'

/-- Python `str.split(sep)`: always returns a non-empty list of segments;
splitting the empty string yields one empty segment. -/
def pySplit (sep : Char) : List Char → List (List Char)
  | [] => [[]]
  | c :: rest =>
    match pySplit sep rest with
    | [] => []
    | h :: t => if c = sep then [] :: h :: t else (c :: h) :: t

/-- Python `sep.join(parts)`. -/
def pyJoin (sep : Char) : List (List Char) → List Char
  | [] => []
  | [p] => p
  | p :: ps => p ++ sep :: pyJoin sep ps

/-- Decimal value of a digit string (most significant digit first). -/
def decVal (s : List Char) : Nat :=
  s.foldl (fun acc c => 10 * acc + (c.toNat - 48)) 0

/-- Python `int(s)` on the optional-sign-plus-digits fragment (no
underscores or surrounding whitespace, which never occur in the inputs
considered here); `none` models the `ValueError` raised otherwise. -/
def pyInt (s : List Char) : Option Int :=
  match s with
  | [] => none
  | c :: rest =>
    if c = '-' then
      if rest ≠ [] && rest.all isDigitP then some (-(decVal rest : Int)) else none
    else if c = '+' then
      if rest ≠ [] && rest.all isDigitP then some (decVal rest : Int) else none
    else if (c :: rest).all isDigitP then some (decVal (c :: rest) : Int)
    else none

/-- Decimal rendering of a natural number, as Python `str(n)`. -/
def natStr (n : Nat) : List Char :=
  Nat.toDigits 10 n

/-! ### Python values

`Val` models the Python values flowing through the compiler pipeline:
strings, `None`, lists and (insertion-ordered) dicts with string keys. -/

inductive Val where
  | str (s : List Char)
  | vnone
  | list (xs : List Val)
  | dict (es : List ((List Char) × Val))

namespace Val

mutual
def vbeq : Val → Val → Bool
  | .str a, .str b => a = b
  | .vnone, .vnone => true
  | .list xs, .list ys => lbeq xs ys
  | .dict es, .dict fs => dbeq es fs
  | _, _ => false

def lbeq : List Val → List Val → Bool
  | [], [] => true
  | x :: xs, y :: ys => vbeq x y && lbeq xs ys
  | _, _ => false

def dbeq : List ((List Char) × Val) → List ((List Char) × Val) → Bool
  | [], [] => true
  | (k, v) :: es, (k2, v2) :: fs => k = k2 && vbeq v v2 && dbeq es fs
  | _, _ => false
end

mutual
theorem vbeq_iff : ∀ a b, vbeq a b = true ↔ a = b
  | .str _, .str _ => by simp [vbeq]
  | .str _, .vnone => by simp [vbeq]
  | .str _, .list _ => by simp [vbeq]
  | .str _, .dict _ => by simp [vbeq]
  | .vnone, .str _ => by simp [vbeq]
  | .vnone, .vnone => by simp [vbeq]
  | .vnone, .list _ => by simp [vbeq]
  | .vnone, .dict _ => by simp [vbeq]
  | .list _, .str _ => by simp [vbeq]
  | .list _, .vnone => by simp [vbeq]
  | .list xs, .list ys => by simp [vbeq, lbeq_iff xs ys]
  | .list _, .dict _ => by simp [vbeq]
  | .dict _, .str _ => by simp [vbeq]
  | .dict _, .vnone => by simp [vbeq]
  | .dict _, .list _ => by simp [vbeq]
  | .dict es, .dict fs => by simp [vbeq, dbeq_iff es fs]

theorem lbeq_iff : ∀ a b, lbeq a b = true ↔ a = b
  | [], [] => by simp [lbeq]
  | [], _ :: _ => by simp [lbeq]
  | _ :: _, [] => by simp [lbeq]
  | x :: xs, y :: ys => by simp [lbeq, vbeq_iff x y, lbeq_iff xs ys]

theorem dbeq_iff : ∀ a b, dbeq a b = true ↔ a = b
  | [], [] => by simp [dbeq]
  | [], _ :: _ => by simp [dbeq]
  | _ :: _, [] => by simp [dbeq]
  | (k, v) :: es, (k2, v2) :: fs => by
      constructor
      · intro h
        simp only [dbeq, Bool.and_eq_true, decide_eq_true_eq] at h
        obtain ⟨⟨h1, h2⟩, h3⟩ := h
        rw [h1, (vbeq_iff v v2).mp h2, (dbeq_iff es fs).mp h3]
      · intro h
        injection h with h1 h2
        injection h1
        simp only [dbeq, Bool.and_eq_true, decide_eq_true_eq]
        refine ⟨⟨by assumption, (vbeq_iff v v2).mpr (by simp_all)⟩,
          (dbeq_iff es fs).mpr h2⟩
end

instance instDecEqVal : DecidableEq Val := fun a b =>
  decidable_of_iff (vbeq a b = true) (vbeq_iff a b)

/-- Custom induction principle for `Val` (handles the nesting through
`List`). -/
theorem myInd (P : Val → Prop)
    (hs : ∀ s, P (.str s)) (hn : P .vnone)
    (hl : ∀ xs, (∀ x ∈ xs, P x) → P (.list xs))
    (hd : ∀ es, (∀ kv ∈ es, P kv.2) → P (.dict es)) : ∀ v, P v
  | .str s => hs s
  | .vnone => hn
  | .list xs => hl xs (fun x hx => myInd P hs hn hl hd x)
  | .dict es => hd es (fun kv hkv => myInd P hs hn hl hd kv.2)
termination_by v => sizeOf v
decreasing_by
  · have := List.sizeOf_lt_of_mem hx; simp; omega
  · have h1 := List.sizeOf_lt_of_mem hkv
    obtain ⟨a, b⟩ := kv
    simp at h1 ⊢
    omega

end Val

/-! ### Dict operations (Python dict semantics on association lists) -/

/-- Lookup in an insertion-ordered dict (`d.get(k)` / `d[k]`). -/
def vGetEs (k : List Char) : List ((List Char) × Val) → Option Val
  | [] => none
  | (k2, v) :: t => if k2 = k then some v else vGetEs k t

/-- `node.get(k)` on an arbitrary value; only ever reached on dicts in the
source (calling `.get` on a non-dict raises `AttributeError` in Python;
the theorems below restrict to inputs where that cannot happen). -/
def vGet (v : Val) (k : List Char) : Option Val :=
  match v with
  | .dict es => vGetEs k es
  | _ => none

/-- Python dict assignment `d[k] = v`: replaces the value in place if the
key exists, otherwise appends the new entry. -/
def setEs (k : List Char) (v : Val) : List ((List Char) × Val) → List ((List Char) × Val)
  | [] => [(k, v)]
  | (k2, v2) :: t => if k2 = k then (k, v) :: t else (k2, v2) :: setEs k v t

/-- Python `k in d`. -/
def hasKeyEs (k : List Char) (es : List ((List Char) × Val)) : Bool :=
  (vGetEs k es).isSome

/-- Coerce a Python value assumed to be a string; the fallback is only
reached on inputs outside the domains considered by the theorems below. -/
def asStr : Val → List Char
  | .str s => s
  | _ => []

/-- `opt.get(k, default)` specialised to string results. -/
def asStrD (o : Option Val) (d : List Char) : List Char :=
  match o with
  | some (.str s) => s
  | some _ => []
  | none => d


/-! ### Lexical analysis (class `Lexer` in LLM-CL_Compiler.py) -/

inductive TokTy where
  | VERSION | CONCEPT | RELATION | QUANTIFIER | REFERENCE
  | OPERATOR | OPEN_BRACE | CLOSE_BRACE | IDENTIFIER | WHITESPACE
  | EOF | ERROR
deriving DecidableEq, Repr

structure Token where
  ty : TokTy
  value : List Char
  line : Nat
  column : Nat
deriving DecidableEq, Repr

/-- Line/column bookkeeping while consuming one whitespace character. -/
def wsStep (lc : Nat × Nat) (ch : Char) : Nat × Nat :=
  if ch = '\n' then (lc.1 + 1, 1) else (lc.1, lc.2 + 1)

/-- `re.match(r"v\d+\.\d+", s)`: the matched text, if any (the digit runs
are maximal, as with a greedy `\d+`). -/
def vMatch (s : List Char) : Option (List Char) :=
  match s with
  | 'v' :: rest =>
    let d1 := rest.takeWhile isDigitP
    if d1 = [] then none
    else
      match rest.dropWhile isDigitP with
      | '.' :: r2 =>
        let d2 := r2.takeWhile isDigitP
        if d2 = [] then none else some ('v' :: d1 ++ '.' :: d2)
      | _ => none
  | _ => none

/-- One pass of `Lexer.tokenize`, written with explicit fuel so that the
definition is structurally recursive (every loop iteration of the Python
code consumes at least one character, so `s.length + 1` fuel always
suffices; the `none` result is unreachable from `tokenize`). -/
def scan (fuel : Nat) (s : List Char) (line col : Nat) : Option (List Token) :=
  match fuel with
  | 0 => none
  | fuel + 1 =>
    match s with
    | [] => some [⟨.EOF, [], line, col⟩]
    | ch :: rest =>
      if isSpaceP ch then
        let run := (ch :: rest).takeWhile isSpaceP
        let rest2 := (ch :: rest).dropWhile isSpaceP
        let lc := run.foldl wsStep (line, col)
        (scan fuel rest2 lc.1 lc.2).map (⟨.WHITESPACE, run, lc.1, col⟩ :: ·)
      else if ch = '@' then
        match vMatch rest with
        | some ver =>
          (scan fuel (rest.drop ver.length) line (col + 1 + ver.length)).map
            (⟨.VERSION, '@' :: ver, line, col⟩ :: ·)
        | none =>
          (scan fuel rest line (col + 1)).map (⟨.ERROR, ['@'], line, col⟩ :: ·)
      else if ch = '#' then
        let run := rest.takeWhile isConceptP
        (scan fuel (rest.dropWhile isConceptP) line (col + 1 + run.length)).map
          (⟨.CONCEPT, '#' :: run, line, col⟩ :: ·)
      else if ch = '~' then
        let run := rest.takeWhile isIdentP
        (scan fuel (rest.dropWhile isIdentP) line (col + 1 + run.length)).map
          (⟨.RELATION, '~' :: run, line, col⟩ :: ·)
      else if ch = '$' then
        let run := rest.takeWhile isIdentP
        (scan fuel (rest.dropWhile isIdentP) line (col + 1 + run.length)).map
          (⟨.QUANTIFIER, '$' :: run, line, col⟩ :: ·)
      else if ch = '^' then
        let run := rest.takeWhile isRefP
        (scan fuel (rest.dropWhile isRefP) line (col + 1 + run.length)).map
          (⟨.REFERENCE, '^' :: run, line, col⟩ :: ·)
      else if ch = obr then
        (scan fuel rest line (col + 1)).map (⟨.OPEN_BRACE, [obr], line, col⟩ :: ·)
      else if ch = cbr then
        (scan fuel rest line (col + 1)).map (⟨.CLOSE_BRACE, [cbr], line, col⟩ :: ·)
      else if isOpP ch then
        (scan fuel rest line (col + 1)).map (⟨.OPERATOR, [ch], line, col⟩ :: ·)
      else if isIdentP ch then
        let run := (ch :: rest).takeWhile isIdentP
        ((scan fuel ((ch :: rest).dropWhile isIdentP) line (col + run.length)).map
          (⟨.IDENTIFIER, run, line, col⟩ :: ·))
      else
        (scan fuel rest line (col + 1)).map (⟨.ERROR, [ch], line, col⟩ :: ·)

/-- `Lexer(source).tokenize()`. -/
def tokenize (s : List Char) : List Token :=
  (scan (s.length + 1) s 1 1).getD [⟨.EOF, [], 1, 1⟩]

/-! ### Syntax analysis (class `Parser` in LLM-CL_Compiler.py) -/

inductive NType where
  | MESSAGE | VERSION | CONCEPT | RELATION | QUANTIFIER
  | REFERENCE | LIST | ITEM | PROPERTY
deriving DecidableEq, Repr

/-- `ASTNode`: type, optional value, children, attribute map (attribute
values are strings in every reachable state: the only attribute the
parser ever writes is the error text). -/
inductive AST where
  | node (ty : NType) (value : Option (List Char)) (children : List AST)
      (attrs : List ((List Char) × (List Char)))

namespace AST

mutual
def abeq : AST → AST → Bool
  | .node ty v cs at_, .node ty2 v2 cs2 at2 =>
    ty = ty2 && v = v2 && albeq cs cs2 && at_ = at2

def albeq : List AST → List AST → Bool
  | [], [] => true
  | x :: xs, y :: ys => abeq x y && albeq xs ys
  | _, _ => false
end

mutual
theorem abeq_iff : ∀ a b, abeq a b = true ↔ a = b
  | .node ty v cs at_, .node ty2 v2 cs2 at2 => by
      constructor
      · intro h
        simp only [abeq, Bool.and_eq_true, decide_eq_true_eq] at h
        obtain ⟨⟨⟨h1, h2⟩, h3⟩, h4⟩ := h
        rw [h1, h2, h4, (albeq_iff cs cs2).mp h3]
      · intro h
        injection h with h1 h2 h3 h4
        simp only [abeq, Bool.and_eq_true, decide_eq_true_eq]
        exact ⟨⟨⟨h1, h2⟩, (albeq_iff cs cs2).mpr h3⟩, h4⟩

theorem albeq_iff : ∀ a b, albeq a b = true ↔ a = b
  | [], [] => by simp [albeq]
  | [], _ :: _ => by simp [albeq]
  | _ :: _, [] => by simp [albeq]
  | x :: xs, y :: ys => by simp [albeq, abeq_iff x y, albeq_iff xs ys]
end

instance instDecEqAST : DecidableEq AST := fun a b =>
  decidable_of_iff (abeq a b = true) (abeq_iff a b)

end AST

/-- Parser error strings (`Parser._error` formatting). -/
def errAt (t : Token) (msg : List Char) : List Char :=
  "Error at line ".data ++ natStr t.line ++ ", column ".data ++ natStr t.column
    ++ ": ".data ++ msg

def errVersionMarker : List Char := "Expected version marker (@v1.0)".data
def errOpenAfterVersion : List Char := "Expected \x27\x7b\x27 after version marker".data
def errCloseMessage : List Char := "Expected \x27\x7d\x27 to close message".data
def errCloseConcept : List Char := "Expected \x27\x7d\x27 to close concept".data
def errCloseRelation : List Char := "Expected \x27\x7d\x27 to close relation".data
def errCloseQuantifier : List Char := "Expected \x27\x7d\x27 to close quantifier".data
def sUnexpected : List Char := "Unexpected token: ".data
def sUnexpectedConcept : List Char := "Unexpected token in concept: ".data
def sUnexpectedRelation : List Char := "Unexpected token in relation: ".data
def sUnexpectedQuantifier : List Char := "Unexpected token in quantifier: ".data

/-- `Parser._peek`.  On an empty stream Python would raise `IndexError`;
every stream produced by the lexer ends with an `EOF` token, which the
parser never consumes, so the dummy is unreachable for lexer input. -/
def peekT : List Token → Token
  | [] => ⟨.EOF, [], 0, 0⟩
  | t :: _ => t

/-- Parser results: `none` models fuel exhaustion (unreachable from
`Parser.parse`, see the fuel comment on `scan`); `Except.error` models the
exception raised by `Parser._error`. -/
def pok {α : Type} (a : α) : Option (Except (List Char) α) := some (.ok a)

def perr {α : Type} (e : List Char) : Option (Except (List Char) α) := some (.error e)

def pbind {α β : Type} (x : Option (Except (List Char) α))
    (g : α → Option (Except (List Char) β)) : Option (Except (List Char) β) :=
  match x with
  | none => none
  | some (.error e) => some (.error e)
  | some (.ok a) => g a

/-- `Parser._consume`: consume a token of the expected type or raise a
positioned error. -/
def consumeT (ty : TokTy) (msg : List Char) (ts : List Token) :
    Except (List Char) (List Token) :=
  if (peekT ts).ty = ty then .ok ts.tail else .error (errAt (peekT ts) msg)

mutual
/-- `Parser._parse_message`. -/
def pMessage : Nat → List Token → Option (Except (List Char) (AST × List Token))
  | 0, _ => none
  | fuel + 1, ts =>
    if (peekT ts).ty = .VERSION then
      match consumeT .OPEN_BRACE errOpenAfterVersion ts.tail with
      | .error e => perr e
      | .ok r1 =>
        pbind (pMsgItems fuel r1) (fun p =>
          match consumeT .CLOSE_BRACE errCloseMessage p.2 with
          | .error e => perr e
          | .ok r3 =>
            pok (AST.node .MESSAGE none
              (AST.node .VERSION (some (peekT ts).value) [] [] :: p.1) [], r3))
    else perr (errAt (peekT ts) errVersionMarker)

/-- The content loop of `Parser._parse_message`. -/
def pMsgItems : Nat → List Token → Option (Except (List Char) (List AST × List Token))
  | 0, _ => none
  | fuel + 1, ts =>
    if (peekT ts).ty = .CLOSE_BRACE || (peekT ts).ty = .EOF then pok ([], ts)
    else if (peekT ts).ty = .CONCEPT then
      pbind (pConcept fuel (peekT ts).value ts.tail) (fun p =>
        pbind (pMsgItems fuel p.2) (fun q => pok (p.1 :: q.1, q.2)))
    else if (peekT ts).ty = .RELATION then
      pbind (pRelation fuel (peekT ts).value ts.tail) (fun p =>
        pbind (pMsgItems fuel p.2) (fun q => pok (p.1 :: q.1, q.2)))
    else if (peekT ts).ty = .QUANTIFIER then
      pbind (pQuantifier fuel (peekT ts).value ts.tail) (fun p =>
        pbind (pMsgItems fuel p.2) (fun q => pok (p.1 :: q.1, q.2)))
    else if (peekT ts).ty = .REFERENCE then
      pbind (pMsgItems fuel ts.tail) (fun q =>
        pok (AST.node .REFERENCE (some (peekT ts).value) [] [] :: q.1, q.2))
    else perr (errAt (peekT ts) (sUnexpected ++ (peekT ts).value))

/-- `Parser._parse_concept`. -/
def pConcept : Nat → List Char → List Token → Option (Except (List Char) (AST × List Token))
  | 0, _, _ => none
  | fuel + 1, v, ts =>
    if (peekT ts).ty = .OPEN_BRACE then
      pbind (pConceptItems fuel ts.tail) (fun p =>
        match consumeT .CLOSE_BRACE errCloseConcept p.2 with
        | .error e => perr e
        | .ok r2 => pok (AST.node .CONCEPT (some v) p.1 [], r2))
    else pok (AST.node .CONCEPT (some v) [] [], ts)

/-- The content loop of `Parser._parse_concept`. -/
def pConceptItems : Nat → List Token → Option (Except (List Char) (List AST × List Token))
  | 0, _ => none
  | fuel + 1, ts =>
    if (peekT ts).ty = .CLOSE_BRACE || (peekT ts).ty = .EOF then pok ([], ts)
    else if (peekT ts).ty = .CONCEPT then
      pbind (pConcept fuel (peekT ts).value ts.tail) (fun p =>
        pbind (pConceptItems fuel p.2) (fun q => pok (p.1 :: q.1, q.2)))
    else if (peekT ts).ty = .RELATION then
      pbind (pRelation fuel (peekT ts).value ts.tail) (fun p =>
        pbind (pConceptItems fuel p.2) (fun q => pok (p.1 :: q.1, q.2)))
    else if (peekT ts).ty = .QUANTIFIER then
      pbind (pQuantifier fuel (peekT ts).value ts.tail) (fun p =>
        pbind (pConceptItems fuel p.2) (fun q => pok (p.1 :: q.1, q.2)))
    else if (peekT ts).ty = .REFERENCE then
      pbind (pConceptItems fuel ts.tail) (fun q =>
        pok (AST.node .REFERENCE (some (peekT ts).value) [] [] :: q.1, q.2))
    else perr (errAt (peekT ts) (sUnexpectedConcept ++ (peekT ts).value))

/-- `Parser._parse_relation`. -/
def pRelation : Nat → List Char → List Token → Option (Except (List Char) (AST × List Token))
  | 0, _, _ => none
  | fuel + 1, v, ts =>
    if (peekT ts).ty = .OPEN_BRACE then
      pbind (pRelationItems fuel ts.tail) (fun p =>
        match consumeT .CLOSE_BRACE errCloseRelation p.2 with
        | .error e => perr e
        | .ok r2 => pok (AST.node .RELATION (some v) p.1 [], r2))
    else pok (AST.node .RELATION (some v) [] [], ts)

/-- The content loop of `Parser._parse_relation` (note: no quantifier
branch — a quantifier token inside a relation body is an error). -/
def pRelationItems : Nat → List Token → Option (Except (List Char) (List AST × List Token))
  | 0, _ => none
  | fuel + 1, ts =>
    if (peekT ts).ty = .CLOSE_BRACE || (peekT ts).ty = .EOF then pok ([], ts)
    else if (peekT ts).ty = .CONCEPT then
      pbind (pConcept fuel (peekT ts).value ts.tail) (fun p =>
        pbind (pRelationItems fuel p.2) (fun q => pok (p.1 :: q.1, q.2)))
    else if (peekT ts).ty = .RELATION then
      pbind (pRelation fuel (peekT ts).value ts.tail) (fun p =>
        pbind (pRelationItems fuel p.2) (fun q => pok (p.1 :: q.1, q.2)))
    else if (peekT ts).ty = .REFERENCE then
      pbind (pRelationItems fuel ts.tail) (fun q =>
        pok (AST.node .REFERENCE (some (peekT ts).value) [] [] :: q.1, q.2))
    else perr (errAt (peekT ts) (sUnexpectedRelation ++ (peekT ts).value))

/-- `Parser._parse_quantifier`. -/
def pQuantifier : Nat → List Char → List Token → Option (Except (List Char) (AST × List Token))
  | 0, _, _ => none
  | fuel + 1, v, ts =>
    if (peekT ts).ty = .OPEN_BRACE then
      pbind (pQuantItems fuel ts.tail) (fun p =>
        match consumeT .CLOSE_BRACE errCloseQuantifier p.2 with
        | .error e => perr e
        | .ok r2 => pok (AST.node .QUANTIFIER (some v) p.1 [], r2))
    else pok (AST.node .QUANTIFIER (some v) [] [], ts)

/-- The content loop of `Parser._parse_quantifier` (concept, nested
quantifier, or identifier-as-property). -/
def pQuantItems : Nat → List Token → Option (Except (List Char) (List AST × List Token))
  | 0, _ => none
  | fuel + 1, ts =>
    if (peekT ts).ty = .CLOSE_BRACE || (peekT ts).ty = .EOF then pok ([], ts)
    else if (peekT ts).ty = .CONCEPT then
      pbind (pConcept fuel (peekT ts).value ts.tail) (fun p =>
        pbind (pQuantItems fuel p.2) (fun q => pok (p.1 :: q.1, q.2)))
    else if (peekT ts).ty = .QUANTIFIER then
      pbind (pQuantifier fuel (peekT ts).value ts.tail) (fun p =>
        pbind (pQuantItems fuel p.2) (fun q => pok (p.1 :: q.1, q.2)))
    else if (peekT ts).ty = .IDENTIFIER then
      pbind (pQuantItems fuel ts.tail) (fun q =>
        pok (AST.node .PROPERTY (some (peekT ts).value) [] [] :: q.1, q.2))
    else perr (errAt (peekT ts) (sUnexpectedQuantifier ++ (peekT ts).value))
end

/-- The degenerate node returned by `Parser.parse` when parsing aborts. -/
def degenerateNode (e : List Char) : AST :=
  AST.node .MESSAGE (some "Error".data) [] [("error".data, e)]

/-- `Parser.parse` on a constructed `Parser(tokens)` (whitespace tokens
are dropped by the constructor).  Returns the resulting tree together
with the parser's `errors` list: `Parser._error` appends the message and
raises, and `parse` catches the exception and appends its text again, so
a failed parse leaves the positioned message twice. -/
def parserRun (tokens : List Token) : AST × List (List Char) :=
  match pMessage ((tokens.filter (fun t => t.ty != TokTy.WHITESPACE)).length + 1)
      (tokens.filter (fun t => t.ty != TokTy.WHITESPACE)) with
  | some (.ok (n, _)) => (n, [])
  | some (.error e) => (degenerateNode e, [e, e])
  | none => (degenerateNode [], [])


/-! ### Key and tag strings used by the IR -/

def kType : List Char := "type".data
def kVersion : List Char := "version".data
def kContent : List Char := "content".data
def kId : List Char := "id".data
def kQualifier : List Char := "qualifier".data
def kChildren : List Char := "children".data
def kName : List Char := "name".data
def kSource : List Char := "source".data
def kPath : List Char := "path".data
def kValue : List Char := "value".data
def kAttributes : List Char := "attributes".data
def sMessage : List Char := "Message".data
def sConcept : List Char := "Concept".data
def sRelation : List Char := "Relation".data
def sQuantifier : List Char := "Quantifier".data
def sReference : List Char := "Reference".data

/-- `ASTNodeType.name` (the enum member name). -/
def ntypeName : NType → List Char
  | .MESSAGE => "MESSAGE".data
  | .VERSION => "VERSION".data
  | .CONCEPT => "CONCEPT".data
  | .RELATION => "RELATION".data
  | .QUANTIFIER => "QUANTIFIER".data
  | .REFERENCE => "REFERENCE".data
  | .LIST => "LIST".data
  | .ITEM => "ITEM".data
  | .PROPERTY => "PROPERTY".data

def astTy : AST → NType
  | .node ty _ _ _ => ty

def astVal : AST → Option (List Char)
  | .node _ v _ _ => v

mutual
/-- Structural size of an `AST` (used to pick a sufficient fuel). -/
def asize : AST → Nat
  | .node _ _ ch _ => 1 + asizeL ch

def asizeL : List AST → Nat
  | [] => 1
  | a :: t => 1 + asize a + asizeL t
end

/-! ### IR construction (class `IRBuilder` in LLM-CL_Compiler.py) -/

/-- The `\d+\.\d+` core of the version patterns (greedy digit runs). -/
def vGroup (s : List Char) : Option (List Char) :=
  let d1 := s.takeWhile isDigitP
  if d1 = [] then none
  else
    match s.dropWhile isDigitP with
    | '.' :: r2 =>
      let d2 := r2.takeWhile isDigitP
      if d2 = [] then none else some (d1 ++ '.' :: d2)
    | _ => none

/-- `re.search(r"v(\d+\.\d+)", s)` returning group 1: the match at the
leftmost position where the whole pattern matches. -/
def reSearchV : List Char → Option (List Char)
  | [] => none
  | c :: rest =>
    if c = 'v' then
      match vGroup rest with
      | some g => some g
      | none => reSearchV rest
    else reSearchV rest

mutual
/-- `IRBuilder._build_node_ir`, with explicit fuel so the definition is
structurally recursive (`2 * asize a + 2` always suffices; the fuel-out
branch is unreachable from `buildIR`). -/
def buildF (fuel : Nat) (a : AST) : Val :=
  match fuel with
  | 0 => .vnone
  | fuel + 1 =>
    match a with
    | .node ty v ch attrs =>
      match ty with
      | .MESSAGE =>
        -- _build_message_ir
        let ps := buildPsF fuel ch
        let es := [(kType, Val.str sMessage)]
        let es1 :=
          match (ps.filter (fun p => p.1 == NType.VERSION)).head? with
          | some p =>
            match p.2.1 with
            | some vv =>
              match reSearchV vv with
              | some g => es ++ [(kVersion, Val.str g)]
              | none => es
            | none => es
          | none => es
        let content := (ps.filter (fun p => p.1 != NType.VERSION)).map (fun p => p.2.2)
        if content.isEmpty then .dict es1
        else .dict (es1 ++ [(kContent, Val.list content)])
      | .CONCEPT =>
        -- _build_concept_ir
        let es := [(kType, Val.str sConcept)]
        let es1 :=
          match v with
          | some val =>
            if val = [] then es
            else
              match pySplit '~' (val.drop 1) with
              | [] => es
              | p0 :: restParts =>
                let es2 := es ++ [(kId, Val.str p0)]
                match restParts with
                | q :: _ => es2 ++ [(kQualifier, Val.str q)]
                | [] => es2
          | none => es
        if ch.isEmpty then .dict es1
        else .dict (es1 ++ [(kChildren, Val.list ((buildPsF fuel ch).map (fun p => p.2.2)))])
      | .RELATION =>
        -- _build_relation_ir
        let es := [(kType, Val.str sRelation)]
        let es1 :=
          match v with
          | some val => if val = [] then es else es ++ [(kName, Val.str (val.drop 1))]
          | none => es
        if ch.isEmpty then .dict es1
        else .dict (es1 ++ [(kChildren, Val.list ((buildPsF fuel ch).map (fun p => p.2.2)))])
      | .QUANTIFIER =>
        -- _build_quantifier_ir
        let es := [(kType, Val.str sQuantifier)]
        let es1 :=
          match v with
          | some val => if val = [] then es else es ++ [(kName, Val.str (val.drop 1))]
          | none => es
        if ch.isEmpty then .dict es1
        else .dict (es1 ++ [(kChildren, Val.list ((buildPsF fuel ch).map (fun p => p.2.2)))])
      | .REFERENCE =>
        -- _build_reference_ir
        let es := [(kType, Val.str sReference)]
        let es1 :=
          match v with
          | some val =>
            if val = [] then es
            else
              match pySplit '.' (val.drop 1) with
              | [] => es
              | p0 :: restParts =>
                let es2 := es ++ [(kSource, Val.str p0)]
                if restParts.isEmpty then es2
                else es2 ++ [(kPath, Val.list (restParts.map Val.str))]
          | none => es
        .dict es1
      | _ =>
        -- generic fallback for other node kinds
        .dict [(kType, Val.str (ntypeName ty)),
               (kValue, match v with | some s => Val.str s | none => Val.vnone),
               (kAttributes, Val.dict (attrs.map (fun kv => (kv.1, Val.str kv.2)))),
               (kChildren, Val.list ((buildPsF fuel ch).map (fun p => p.2.2)))]

/-- Children of a node, paired with their type and value (so that the
per-node builder can filter them without losing structural recursion). -/
def buildPsF (fuel : Nat) : List AST → List (NType × Option (List Char) × Val)
  | [] => []
  | a :: t =>
    match fuel with
    | 0 => []
    | fuel + 1 => (astTy a, astVal a, buildF fuel a) :: buildPsF fuel t
end

/-- `IRBuilder(ast).build()`. -/
def buildIR (a : AST) : Val :=
  buildF (2 * asize a + 2) a

/-! ### Canonicalization (class `Optimizer` in LLM-CL_Compiler.py)

The canonicalizer takes a parameter `a`: the source derives fallback
placeholder ids from `id(node)` (the node's memory address), which has no
portable meaning; the model takes the address digits as the parameter `a`
and the theorems below either quantify over it or avoid the placeholder
branch entirely. -/

/-- The sort key of `Optimizer._optimize_message`:
`(x.get('type',''), x.get('id',''), x.get('name',''))`.  (On entries whose
`type`/`id`/`name` values are not strings Python would build a tuple that
can fail to compare; the theorems restrict to string-keyed entries.) -/
def sortKeyV (v : Val) : List Char × List Char × List Char :=
  (asStrD (vGet v kType) [], asStrD (vGet v kId) [], asStrD (vGet v kName) [])

/-- Lexicographic strict order on strings (Python `<` on `str`). -/
def strLtB : List Char → List Char → Bool
  | [], [] => false
  | [], _ :: _ => true
  | _ :: _, [] => false
  | a :: as1, b :: bs1 => if a < b then true else if b < a then false else strLtB as1 bs1

/-- Lexicographic strict order on key triples (Python `<` on tuples). -/
def keyLtB (x y : List Char × List Char × List Char) : Bool :=
  strLtB x.1 y.1 ||
    (x.1 = y.1 && (strLtB x.2.1 y.2.1 || (x.2.1 = y.2.1 && strLtB x.2.2 y.2.2)))

/-- Comparison used when sorting message content; the sort operates on
`(original, canonicalized)` pairs and compares the original entries, which
is exactly `list.sort(key=...)` applied before the per-entry optimization
(the source sorts first and then maps `_optimize_node`). -/
def pairLtB (p q : Val × Val) : Bool :=
  keyLtB (sortKeyV p.1) (sortKeyV q.1)

/-- Stable insertion of one element into a sorted list (a new element is
placed before the first element not strictly below it, so equal keys keep
their original relative order, as in Python's stable `list.sort`). -/
def insP (x : Val × Val) : List (Val × Val) → List (Val × Val)
  | [] => [x]
  | y :: ys => if pairLtB y x then y :: insP x ys else x :: y :: ys

/-- Stable insertion sort modelling Python's stable `list.sort`. -/
def iSortP : List (Val × Val) → List (Val × Val)
  | [] => []
  | x :: xs => insP x (iSortP xs)

/-- `n.get('type') == t` on a content/children entry. -/
def isTypeDp (t : List Char) (p : Val × Val) : Bool :=
  vGet p.1 kType == some (Val.str t)

/-- Append a defaulted entry when the key is missing (`if k not in node:
node[k] = v`).  The source applies the default before transforming the
children/content entry; since the walks below preserve keys and never
touch the defaulted key, applying it afterwards yields the same dict. -/
def withDefault (k : List Char) (v : Val) (es : List ((List Char) × Val)) :
    List ((List Char) × Val) :=
  if hasKeyEs k es then es else es ++ [(k, v)]

mutual
/-- `Optimizer._optimize_node`. -/
def canonV (a : List Char) : Val → Val
  | .dict es =>
    if vGetEs kType es = some (.str sMessage) then
      -- _optimize_message: default version, then canonicalize content
      .dict (withDefault kVersion (Val.str ['1', '.', '0']) (msgEntries a es))
    else if vGetEs kType es = some (.str sConcept) then
      -- _optimize_concept: default id, then regroup children
      .dict (withDefault kId (Val.str ("concept_".data ++ a)) (conceptEntries a es))
    else if vGetEs kType es = some (.str sRelation) then
      -- _optimize_relation: default name, then filter children
      .dict (withDefault kName (Val.str ("relation_".data ++ a)) (relEntries a es))
    else .dict (walkEs a es)
  | .list xs => .list (canonL a xs)
  | v => v

def canonL (a : List Char) : List Val → List Val
  | [] => []
  | x :: xs => canonV a x :: canonL a xs

/-- Each element paired with its canonicalization.  Sorting/regrouping a
list of such pairs by the first component and then projecting the second
is exactly "reorder by the original entries, then optimize each". -/
def canonPairs (a : List Char) : List Val → List (Val × Val)
  | [] => []
  | x :: xs => (x, canonV a x) :: canonPairs a xs

/-- The generic dict walk of `_optimize_node` (entries whose value is a
dict or a list are optimized in place, other values are untouched). -/
def walkEs (a : List Char) : List ((List Char) × Val) → List ((List Char) × Val)
  | [] => []
  | (k, v) :: t =>
    (k, match v with
        | .dict es => canonV a (.dict es)
        | .list xs => canonV a (.list xs)
        | v2 => v2) :: walkEs a t

/-- The content handling of `Optimizer._optimize_message`: filter the
`None` entries out of a list-valued `content`, sort by the key tuple and
optimize each entry.  (The model filters the `(original, canonicalized)`
pairs, which commutes with the source's filter-before-sort order.) -/
def msgEntries (a : List Char) : List ((List Char) × Val) → List ((List Char) × Val)
  | [] => []
  | (k, v) :: t =>
    if k = kContent then
      (k, match v with
          | .list cs =>
            Val.list
              ((iSortP ((canonPairs a cs).filter (fun p => p.1 != Val.vnone))).map Prod.snd)
          | v2 => v2) :: t
    else (k, v) :: msgEntries a t

/-- The children handling of `Optimizer._optimize_concept`: filter the
`None` entries out of a list-valued `children` and regroup them into
concepts, then relations, then everything else (a stable partition, not a
sort), optimizing each. -/
def conceptEntries (a : List Char) : List ((List Char) × Val) → List ((List Char) × Val)
  | [] => []
  | (k, v) :: t =>
    if k = kChildren then
      (k, match v with
          | .list cs =>
            let ps := (canonPairs a cs).filter (fun p => p.1 != Val.vnone)
            Val.list
              ((ps.filter (isTypeDp sConcept) ++ ps.filter (isTypeDp sRelation)
                  ++ ps.filter (fun p => !isTypeDp sConcept p && !isTypeDp sRelation p)).map
                Prod.snd)
          | v2 => v2) :: t
    else (k, v) :: conceptEntries a t

/-- The children handling of `Optimizer._optimize_relation`: filter the
`None` entries out of a list-valued `children` and optimize each (no
reordering). -/
def relEntries (a : List Char) : List ((List Char) × Val) → List ((List Char) × Val)
  | [] => []
  | (k, v) :: t =>
    if k = kChildren then
      (k, match v with
          | .list cs =>
            Val.list (((canonPairs a cs).filter (fun p => p.1 != Val.vnone)).map Prod.snd)
          | v2 => v2) :: t
    else (k, v) :: relEntries a t
end

/-- `Optimizer(ir).optimize()`. -/
def canonicalize (a : List Char) (ir : Val) : Val :=
  canonV a ir

/-! ### Code generation (class `CodeGenerator` in LLM-CL_Compiler.py) -/

mutual
/-- Structural size of a `Val` (used to pick a sufficient fuel). -/
def vsize : Val → Nat
  | .str _ => 1
  | .vnone => 1
  | .list xs => 1 + vsizeL xs
  | .dict es => 1 + vsizeD es

def vsizeL : List Val → Nat
  | [] => 1
  | x :: t => 1 + vsize x + vsizeL t

def vsizeD : List ((List Char) × Val) → Nat
  | [] => 1
  | kv :: t => 1 + vsize kv.2 + vsizeD t
end

/-- `CodeGenerator._indent` at a given indent level (2 spaces per level). -/
def indentSp (lvl : Nat) : List Char :=
  List.replicate (lvl * 2) ' '

mutual
/-- `CodeGenerator._generate_node` at the current indent level, with
explicit fuel so the definition is structurally recursive
(`2 * vsize v + 2` always suffices; the fuel-out branch is unreachable
from `genCode`). -/
def genV (fuel : Nat) (lvl : Nat) (v : Val) : List Char :=
  match fuel with
  | 0 => []
  | fuel + 1 =>
    match v with
    | .dict es =>
      match vGetEs kType es with
      | some (.str t) =>
        if t = sMessage then
          -- _generate_message
          '@' :: 'v' :: asStrD (vGetEs kVersion es) ['1', '.', '0'] ++ obr :: '\n' ::
            (match vGetEs kContent es with
             | some (.list cs) => genChildren fuel (lvl + 1) cs
             | _ => []) ++ [cbr]
        else if t = sConcept then
          -- _generate_concept
          let cid := asStrD (vGetEs kId es) []
          let qual := asStrD (vGetEs kQualifier es) []
          let tag := if qual ≠ [] then '#' :: cid ++ '~' :: qual else '#' :: cid
          match vGetEs kChildren es with
          | some (.list cs) =>
            if cs.isEmpty then tag
            else tag ++ obr :: '\n' :: genChildren fuel (lvl + 1) cs ++ indentSp lvl ++ [cbr]
          | _ => tag
        else if t = sRelation then
          -- _generate_relation
          let tag := '~' :: asStrD (vGetEs kName es) []
          match vGetEs kChildren es with
          | some (.list cs) =>
            if cs.isEmpty then tag
            else tag ++ obr :: '\n' :: genChildren fuel (lvl + 1) cs ++ indentSp lvl ++ [cbr]
          | _ => tag
        else if t = sQuantifier then
          -- _generate_quantifier
          let tag := '$' :: asStrD (vGetEs kName es) []
          match vGetEs kChildren es with
          | some (.list cs) =>
            if cs.isEmpty then tag
            else tag ++ obr :: '\n' :: genChildren fuel (lvl + 1) cs ++ indentSp lvl ++ [cbr]
          | _ => tag
        else if t = sReference then
          -- _generate_reference
          let src := asStrD (vGetEs kSource es) []
          match vGetEs kPath es with
          | some (.list (p :: ps)) =>
            '^' :: src ++ '.' :: pyJoin '.' ((p :: ps).map asStr)
          | _ => '^' :: src
        else []
      | _ => []
    | _ => []

/-- The per-child rendering loop shared by message/concept/relation/
quantifier generation: each child with non-empty code is indented and
placed on its own line. -/
def genChildren (fuel : Nat) (lvl : Nat) : List Val → List Char
  | [] => []
  | c :: t =>
    match fuel with
    | 0 => []
    | fuel + 1 =>
      let code := genV fuel lvl c
      (if code.isEmpty then [] else indentSp lvl ++ code ++ ['\n']) ++ genChildren fuel lvl t
end

/-- `CodeGenerator(ir).generate()` (initial indent level 0). -/
def genCode (v : Val) : List Char :=
  genV (2 * vsize v + 2) 0 v


/-! ### Semantic analysis (class `SemanticAnalyzer` in LLM-CL_Compiler.py) -/

/-- `SemanticAnalyzer._check_concept`: the `(errors, warnings)` this check
appends for one node (the method only ever appends to `self.warnings`, so
the errors component is always empty).  `space` is the analyzer's
`concept_space` dict. -/
def checkConcept (space : List ((List Char) × Val)) (nd : AST) :
    List (List Char) × List (List Char) :=
  ([],
   match astVal nd with
   | none => []
   | some v =>
     if ['#', 'c'].isPrefixOf v && !v.contains '~' then
       let cid := v.drop 1
       if space ≠ [] && (vGetEs cid space).isNone then
         ["Unknown concept ID: ".data ++ cid]
       else []
     else [])

/-! ### Universal Concept Space (LLM-CL_Encoder_Decoder.py) -/

/-- A concept entry: the dict
`{label, definition, related, hyponyms, hypernyms}` built by
`add_concept`/`_initialize_default_concepts`. -/
structure ConceptDef where
  label : List Char
  defn : List Char
  related : List (List Char)
  hyponyms : List (List Char)
  hypernyms : List (List Char)
deriving DecidableEq, Repr

/-- Lookup in the (insertion-ordered) `self.concepts` dict. -/
def lookupCD (k : List Char) : List ((List Char) × ConceptDef) → Option ConceptDef
  | [] => none
  | (k2, v) :: t => if k2 = k then some v else lookupCD k t

/-- Python dict assignment on the registry. -/
def setCD (k : List Char) (v : ConceptDef) :
    List ((List Char) × ConceptDef) → List ((List Char) × ConceptDef)
  | [] => [(k, v)]
  | (k2, v2) :: t => if k2 = k then (k, v) :: t else (k2, v2) :: setCD k v t

/-- `max(int(cid[1:]) for cid in self.concepts.keys() if cid[1:].isdigit()) + 1`;
`none` models the `ValueError` raised by `max` on an empty sequence. -/
def nextIdNum (cs : List ((List Char) × ConceptDef)) : Option Nat :=
  let nums := cs.filterMap (fun kv =>
    if kv.1.drop 1 ≠ [] && (kv.1.drop 1).all isDigitP then some (decVal (kv.1.drop 1))
    else none)
  match nums with
  | [] => none
  | n :: t => some (t.foldl max n + 1)

/-- Back-patch loop body for `related` edges: if the referenced id exists
and does not already list the new id, append it. -/
def patchRelated (nid : List Char) (acc : List ((List Char) × ConceptDef))
    (rid : List Char) : List ((List Char) × ConceptDef) :=
  match lookupCD rid acc with
  | some cd =>
    if nid ∈ cd.related then acc
    else setCD rid { cd with related := cd.related ++ [nid] } acc
  | none => acc

/-- Back-patch loop body for `hyponyms` edges (inverse is `hypernyms`). -/
def patchHypernyms (nid : List Char) (acc : List ((List Char) × ConceptDef))
    (rid : List Char) : List ((List Char) × ConceptDef) :=
  match lookupCD rid acc with
  | some cd =>
    if nid ∈ cd.hypernyms then acc
    else setCD rid { cd with hypernyms := cd.hypernyms ++ [nid] } acc
  | none => acc

/-- Back-patch loop body for `hypernyms` edges (inverse is `hyponyms`). -/
def patchHyponyms (nid : List Char) (acc : List ((List Char) × ConceptDef))
    (rid : List Char) : List ((List Char) × ConceptDef) :=
  match lookupCD rid acc with
  | some cd =>
    if nid ∈ cd.hyponyms then acc
    else setCD rid { cd with hyponyms := cd.hyponyms ++ [nid] } acc
  | none => acc

/-- `UniversalConceptSpace.add_concept`: creates `c<max+1>`, stores the
new concept, then back-patches the inverse edges.  Returns the updated
registry and the new id, or `none` for the `ValueError` raised when no
existing key has a numeric tail. -/
def addConcept (cs : List ((List Char) × ConceptDef)) (label defn : List Char)
    (related hyponyms hypernyms : List (List Char)) :
    Option (List ((List Char) × ConceptDef) × List Char) :=
  match nextIdNum cs with
  | none => none
  | some n =>
    let nid := 'c' :: natStr n
    let cs1 := setCD nid ⟨label, defn, related, hyponyms, hypernyms⟩ cs
    let cs2 := related.foldl (patchRelated nid) cs1
    let cs3 := hyponyms.foldl (patchHypernyms nid) cs2
    let cs4 := hypernyms.foldl (patchHyponyms nid) cs3
    some (cs4, nid)

/-! ### Reference resolution (class `ReferenceResolver` in
LLM-CL_Encoder_Decoder.py) -/

/-- The resolver's state: `context_buffer` and `max_context_size`. -/
structure RState where
  contextBuffer : List Val
  maxContextSize : Nat
deriving DecidableEq

/-- `ReferenceResolver.add_to_context`: append, then evict the oldest
entry if the buffer exceeds the maximum size. -/
def addToContext (st : RState) (message : Val) : RState :=
  let b := st.contextBuffer ++ [message]
  if b.length > st.maxContextSize then ⟨b.drop 1, st.maxContextSize⟩
  else ⟨b, st.maxContextSize⟩

/-- A Python return value, collapsed onto the resolver's `Optional`
convention (`None` both signals failure and is an ordinary value). -/
def pyRet (v : Val) : Option Val :=
  match v with
  | .vnone => none
  | _ => some v

/-- First dict value whose key has `seg` as a prefix. -/
def findKeyPre (seg : List Char) : List ((List Char) × Val) → Option Val
  | [] => none
  | (k, v) :: t => if seg.isPrefixOf k then some v else findKeyPre seg t

/-- `isinstance(item, dict) and any(k.startswith(segment) for k in item.keys())`. -/
def isDictWithKeyPre (seg : List Char) (item : Val) : Bool :=
  match item with
  | .dict es => es.any (fun kv => seg.isPrefixOf kv.1)
  | _ => false

/-- `ReferenceResolver._resolve_path`: walk the path segments; for dicts a
`#`-segment matches keys by prefix and a plain segment is an exact lookup,
for lists a numeric segment is a 0-based index and a `#`-segment scans for
the first dict element with a matching key; anything else fails. -/
def resolvePath (obj : Val) : List (List Char) → Option Val
  | [] => pyRet obj
  | seg :: rest =>
    match obj with
    | .dict es =>
      if ['#'].isPrefixOf seg then
        match findKeyPre seg es with
        | some v => resolvePath v rest
        | none => none
      else
        match vGetEs seg es with
        | some v => if v = .vnone then none else resolvePath v rest
        | none => none
    | .list xs =>
      match pyInt seg with
      | some i =>
        if 0 ≤ i && i < (xs.length : Int) then
          match xs[i.toNat]? with
          | some x => resolvePath x rest
          | none => none
        else none
      | none =>
        if ['#'].isPrefixOf seg then
          match xs.find? (isDictWithKeyPre seg) with
          | some item => resolvePath item rest
          | none => none
        else none
    | _ => none

/-- `ReferenceResolver.resolve_reference`.  The function reads but never
writes the resolver's state, so the model returns the state alongside the
result to make that observable. -/
def resolveReference (st : RState) (tok : List Char) : Option Val × RState :=
  if !(['^'].isPrefixOf tok) then (none, st)
  else
    match pySplit '.' (tok.drop 1) with
    | [] => (none, st)
    | p0 :: rest =>
      if "prev".data.isPrefixOf p0 then
        match pyInt (p0.drop 4) with
        | none => (none, st)
        | some idx =>
          if idx ≤ 0 || (st.contextBuffer.length : Int) < idx then (none, st)
          else
            match st.contextBuffer[(st.contextBuffer.length - idx.toNat)]? with
            | some m => (resolvePath m rest, st)
            | none => (none, st)
      else if p0 = "self".data then
        match st.contextBuffer.getLast? with
        | none => (none, st)
        | some m => (resolvePath m rest, st)
      else if p0 = "shared".data then
        (some (.dict [(kType, .str "shared_knowledge".data), (kPath, .str (pyJoin '.' rest))]),
          st)
      else (none, st)


/-! ### General helper lemmas -/

theorem pySplit_no_sep (c : Char) (s : List Char) (h : c ∉ s) : pySplit c s = [s] := by
  induction s with
  | nil => rfl
  | cons c2 t ih =>
    simp only [List.mem_cons, not_or] at h
    rw [pySplit, ih h.2]
    simp [Ne.symm h.1]

theorem pyInt_digits (s : List Char) (h1 : s ≠ []) (h2 : s.all isDigitP = true) :
    pyInt s = some ((decVal s : Int)) := by
  match s with
  | c :: t =>
    have hc : isDigitP c := by
      simp only [List.all_cons, Bool.and_eq_true] at h2
      exact h2.1
    have hm : c ≠ '-' := by rintro rfl; simp [isDigitP] at hc
    have hp : c ≠ '+' := by rintro rfl; simp [isDigitP] at hc
    unfold pyInt
    simp [hm, hp, h2]

/-- Evaluation of `resolve_reference` on a `^prev<digits>` token with no
further path: everything up to the index guard computes away. -/
theorem resolve_prev_eval (st : RState) (s : List Char) (hs : s ≠ [])
    (hd : s.all isDigitP = true) :
    resolveReference st ("^prev".data ++ s)
      = (if (decVal s : Int) ≤ 0 || (st.contextBuffer.length : Int) < (decVal s : Int) then
          (none, st)
         else
          match st.contextBuffer[(st.contextBuffer.length - ((decVal s : Int)).toNat)]? with
          | some m => (pyRet m, st)
          | none => (none, st)) := by
  have hdot : ('.' : Char) ∉ "prev".data ++ s := by
    intro hmem
    rcases List.mem_append.mp hmem with h | h
    · simp [String.data] at h
    · have := List.all_eq_true.mp hd _ h
      simp [isDigitP] at this
  have hsplit : pySplit '.' ("prev".data ++ s) = ["prev".data ++ s] :=
    pySplit_no_sep _ _ hdot
  have hpre : ("prev".data).isPrefixOf ("prev".data ++ s) = true := by
    rw [List.isPrefixOf_iff_prefix]; exact List.prefix_append _ _
  have hlen : ("prev".data : List Char).length = 4 := rfl
  have hdrop : ("prev".data ++ s).drop 4 = s := by
    rw [← hlen]; exact List.drop_left _ _
  have htok : ("^prev".data ++ s) = '^' :: ("prev".data ++ s) := rfl
  rw [resolveReference]
  rw [htok]
  simp only [List.drop_succ_cons, List.drop_zero]
  rw [hsplit]
  simp only [hpre, hdrop, pyInt_digits s hs hd]
  have h1 : (['^'].isPrefixOf ('^' :: ("prev".data ++ s))) = true := by
    simp [List.isPrefixOf]
  rw [h1]
  simp only [Bool.not_true, Bool.false_eq_true, if_false]
  rw [if_pos trivial]
  split
  · rfl
  · split <;> simp [resolvePath]

/-! ### Claim C3 -/

/-- C3: for every context buffer state and every decimal numeral `K` (a
non-empty digit string), resolving `^prev` followed by `K` with no further
path returns the `K`-th most recent buffer entry whenever
`1 ≤ K ≤ len(buffer)` (`prev1` being the most recent, i.e. the entry at
index `len - K`); resolving `^prev0`, and `^prev<len+1>`, both return the
not-found result `None`. -/
theorem claimC3_prev_reference_resolution (st : RState) (s : List Char)
    (hs : s ≠ []) (hd : s.all isDigitP = true)
    (hnn : Val.vnone ∉ st.contextBuffer) :
    (∀ (h1 : 1 ≤ decVal s) (h2 : decVal s ≤ st.contextBuffer.length),
      (resolveReference st ("^prev".data ++ s)).1
        = some (st.contextBuffer.get ⟨st.contextBuffer.length - decVal s, by omega⟩))
    ∧ (decVal s = 0 → (resolveReference st ("^prev".data ++ s)).1 = none)
    ∧ (decVal s = st.contextBuffer.length + 1 →
        (resolveReference st ("^prev".data ++ s)).1 = none) := by
  rw [resolve_prev_eval st s hs hd]
  refine ⟨?_, ?_, ?_⟩
  · intro h1 h2
    have hg : ¬((decVal s : Int) ≤ 0 || ((st.contextBuffer.length : Int) < (decVal s : Int))) = true := by
      simp only [Bool.or_eq_true, decide_eq_true_eq, not_or, not_lt, not_le]
      constructor <;> [omega; exact_mod_cast h2]
    rw [if_neg hg]
    have hidx : st.contextBuffer.length - ((decVal s : Int)).toNat
        = st.contextBuffer.length - decVal s := by
      simp
    rw [hidx]
    have hlt : st.contextBuffer.length - decVal s < st.contextBuffer.length := by omega
    rw [List.getElem?_eq_getElem hlt]
    have hmem : st.contextBuffer.get ⟨st.contextBuffer.length - decVal s, hlt⟩
        ∈ st.contextBuffer := List.get_mem _ _ hlt
    have hne : st.contextBuffer.get ⟨st.contextBuffer.length - decVal s, hlt⟩ ≠ Val.vnone := by
      intro h; rw [h] at hmem; exact hnn hmem
    show pyRet (st.contextBuffer.get ⟨st.contextBuffer.length - decVal s, hlt⟩)
        = some (st.contextBuffer.get ⟨st.contextBuffer.length - decVal s, hlt⟩)
    cases hval : st.contextBuffer.get ⟨st.contextBuffer.length - decVal s, hlt⟩ with
    | str s2 => simp [pyRet]
    | vnone => exact absurd hval hne
    | list xs => simp [pyRet]
    | dict es => simp [pyRet]
  · intro h0
    rw [if_pos]
    simp [h0]
  · intro hlen
    rw [if_pos]
    simp only [Bool.or_eq_true, decide_eq_true_eq]
    right
    rw [hlen]
    push_cast
    omega

/-- Witness for C3 at a one-entry buffer and `K = 1`. -/
theorem claimC3_witness :
    (resolveReference ⟨[Val.dict []], 10⟩ ("^prev".data ++ ['1'])).1 = some (Val.dict []) := by
  have h := claimC3_prev_reference_resolution ⟨[Val.dict []], 10⟩ ['1']
    (by decide) (by decide) (by decide)
  have h2 := h.1 (by decide) (by decide)
  exact h2

/-! ### Claim C10 -/

/-- C10: for every reference token and resolver state, `resolve_reference`
leaves the resolver's state unchanged: the context buffer (entries and
order) and the configured maximum size are identical before and after the
call, whether resolution succeeds or fails. -/
theorem claimC10_resolve_reference_frame (st : RState) (tok : List Char) :
    (resolveReference st tok).2.contextBuffer = st.contextBuffer
    ∧ (resolveReference st tok).2.maxContextSize = st.maxContextSize := by
  have h : (resolveReference st tok).2 = st := by
    unfold resolveReference
    repeat' split
    all_goals rfl
  rw [h]
  exact ⟨rfl, rfl⟩


/-! ### Registry lemmas for claim C4 -/

theorem lookupCD_setCD (k k2 : List Char) (v : ConceptDef) :
    ∀ cs, lookupCD k (setCD k2 v cs) = if k2 = k then some v else lookupCD k cs
  | [] => by simp [lookupCD, setCD]
  | (k3, v3) :: t => by
    rw [setCD]
    by_cases h3 : k3 = k2
    · subst h3
      by_cases h : k3 = k <;> simp [lookupCD, h]
    · rw [if_neg h3]
      by_cases h : k3 = k
      · have hne : k2 ≠ k := fun he => h3 (h.trans he.symm)
        simp [lookupCD, h, hne]
      · simp [lookupCD, h, lookupCD_setCD k k2 v t]

theorem lookupCD_mem (k : List Char) (cd : ConceptDef) :
    ∀ cs, lookupCD k cs = some cd → (k, cd) ∈ cs
  | [] => by simp [lookupCD]
  | (k2, v2) :: t => by
    intro h
    rw [lookupCD] at h
    split at h
    · cases h
      rename_i heq
      subst heq
      exact List.mem_cons_self _ _
    · exact List.mem_cons_of_mem _ (lookupCD_mem k cd t h)

theorem foldl_pres {α β : Type} (f : α → β → α) (P : α → Prop)
    (hstep : ∀ acc x, P acc → P (f acc x)) :
    ∀ (l : List β) (acc : α), P acc → P (l.foldl f acc)
  | [], _, h => h
  | x :: t, acc, h => foldl_pres f P hstep t (f acc x) (hstep acc x h)

theorem foldl_estab {α β : Type} (f : α → β → α) (P : α → Prop) (x0 : β)
    (hstep : ∀ acc x, P acc → P (f acc x))
    (he : ∀ acc, P (f acc x0)) :
    ∀ (l : List β) (acc : α), x0 ∈ l → P (l.foldl f acc) := by
  intro l
  induction l with
  | nil => simp
  | cons x t ih =>
    intro acc hmem
    rcases List.mem_cons.mp hmem with rfl | hmem2
    · exact foldl_pres f P hstep t (f acc x0) (he acc)
    · exact ih (f acc x) hmem2

/-- The property "every concept stored under `rid` lists `nid` among its
`related` edges". -/
def HasRel (nid rid : List Char) (acc : List ((List Char) × ConceptDef)) : Prop :=
  ∀ cd, lookupCD rid acc = some cd → nid ∈ cd.related

def HasHyper (nid rid : List Char) (acc : List ((List Char) × ConceptDef)) : Prop :=
  ∀ cd, lookupCD rid acc = some cd → nid ∈ cd.hypernyms

def HasHypo (nid rid : List Char) (acc : List ((List Char) × ConceptDef)) : Prop :=
  ∀ cd, lookupCD rid acc = some cd → nid ∈ cd.hyponyms

theorem patchRelated_estab (nid : List Char) (acc : List ((List Char) × ConceptDef))
    (rid : List Char) : HasRel nid rid (patchRelated nid acc rid) := by
  intro cd hcd
  unfold patchRelated at hcd
  split at hcd
  · rename_i cd0 heq
    split at hcd
    · rename_i hmem
      rw [heq] at hcd
      cases hcd
      exact hmem
    · rw [lookupCD_setCD, if_pos rfl] at hcd
      cases hcd
      simp
  · rename_i heq
    rw [heq] at hcd
    cases hcd

theorem patchRelated_pres (nid rid : List Char) (acc : List ((List Char) × ConceptDef))
    (rid2 : List Char) (h : HasRel nid rid acc) :
    HasRel nid rid (patchRelated nid acc rid2) := by
  intro cd hcd
  unfold patchRelated at hcd
  split at hcd
  · rename_i cd0 heq
    split at hcd
    · exact h cd hcd
    · rw [lookupCD_setCD] at hcd
      split at hcd
      · cases hcd
        simp
      · exact h cd hcd
  · exact h cd hcd

theorem patchHypernyms_presRel (nid rid : List Char) (acc : List ((List Char) × ConceptDef))
    (rid2 : List Char) (h : HasRel nid rid acc) :
    HasRel nid rid (patchHypernyms nid acc rid2) := by
  intro cd hcd
  unfold patchHypernyms at hcd
  split at hcd
  · rename_i cd0 heq
    split at hcd
    · exact h cd hcd
    · rw [lookupCD_setCD] at hcd
      split at hcd
      · rename_i he
        cases hcd
        exact h cd0 (he ▸ heq)
      · exact h cd hcd
  · exact h cd hcd

theorem patchHyponyms_presRel (nid rid : List Char) (acc : List ((List Char) × ConceptDef))
    (rid2 : List Char) (h : HasRel nid rid acc) :
    HasRel nid rid (patchHyponyms nid acc rid2) := by
  intro cd hcd
  unfold patchHyponyms at hcd
  split at hcd
  · rename_i cd0 heq
    split at hcd
    · exact h cd hcd
    · rw [lookupCD_setCD] at hcd
      split at hcd
      · rename_i he
        cases hcd
        exact h cd0 (he ▸ heq)
      · exact h cd hcd
  · exact h cd hcd

theorem patchHypernyms_estab (nid : List Char) (acc : List ((List Char) × ConceptDef))
    (rid : List Char) : HasHyper nid rid (patchHypernyms nid acc rid) := by
  intro cd hcd
  unfold patchHypernyms at hcd
  split at hcd
  · rename_i cd0 heq
    split at hcd
    · rename_i hmem
      rw [heq] at hcd
      cases hcd
      exact hmem
    · rw [lookupCD_setCD, if_pos rfl] at hcd
      cases hcd
      simp
  · rename_i heq
    rw [heq] at hcd
    cases hcd

theorem patchHypernyms_presHyper (nid rid : List Char) (acc : List ((List Char) × ConceptDef))
    (rid2 : List Char) (h : HasHyper nid rid acc) :
    HasHyper nid rid (patchHypernyms nid acc rid2) := by
  intro cd hcd
  unfold patchHypernyms at hcd
  split at hcd
  · rename_i cd0 heq
    split at hcd
    · exact h cd hcd
    · rw [lookupCD_setCD] at hcd
      split at hcd
      · cases hcd
        simp
      · exact h cd hcd
  · exact h cd hcd

theorem patchHyponyms_presHyper (nid rid : List Char) (acc : List ((List Char) × ConceptDef))
    (rid2 : List Char) (h : HasHyper nid rid acc) :
    HasHyper nid rid (patchHyponyms nid acc rid2) := by
  intro cd hcd
  unfold patchHyponyms at hcd
  split at hcd
  · rename_i cd0 heq
    split at hcd
    · exact h cd hcd
    · rw [lookupCD_setCD] at hcd
      split at hcd
      · rename_i he
        cases hcd
        exact h cd0 (he ▸ heq)
      · exact h cd hcd
  · exact h cd hcd

theorem patchHyponyms_estab (nid : List Char) (acc : List ((List Char) × ConceptDef))
    (rid : List Char) : HasHypo nid rid (patchHyponyms nid acc rid) := by
  intro cd hcd
  unfold patchHyponyms at hcd
  split at hcd
  · rename_i cd0 heq
    split at hcd
    · rename_i hmem
      rw [heq] at hcd
      cases hcd
      exact hmem
    · rw [lookupCD_setCD, if_pos rfl] at hcd
      cases hcd
      simp
  · rename_i heq
    rw [heq] at hcd
    cases hcd

/-- The invariant "every stored concept has duplicate-free edge lists". -/
def RegNodup (acc : List ((List Char) × ConceptDef)) : Prop :=
  ∀ k cd, lookupCD k acc = some cd →
    cd.related.Nodup ∧ cd.hyponyms.Nodup ∧ cd.hypernyms.Nodup

theorem patchRelated_nodup (nid : List Char) (acc : List ((List Char) × ConceptDef))
    (rid : List Char) (h : RegNodup acc) : RegNodup (patchRelated nid acc rid) := by
  intro k cd hcd
  unfold patchRelated at hcd
  split at hcd
  · rename_i cd0 heq
    split at hcd
    · exact h k cd hcd
    · rename_i hmem
      rw [lookupCD_setCD] at hcd
      split at hcd
      · cases hcd
        have h1 := h rid cd0 heq
        refine ⟨?_, h1.2.1, h1.2.2⟩
        simp only [List.nodup_append, List.nodup_cons, List.nodup_nil]
        exact ⟨h1.1, ⟨by simp, trivial⟩, by simpa using hmem⟩
      · exact h k cd hcd
  · exact h k cd hcd

theorem patchHypernyms_nodup (nid : List Char) (acc : List ((List Char) × ConceptDef))
    (rid : List Char) (h : RegNodup acc) : RegNodup (patchHypernyms nid acc rid) := by
  intro k cd hcd
  unfold patchHypernyms at hcd
  split at hcd
  · rename_i cd0 heq
    split at hcd
    · exact h k cd hcd
    · rename_i hmem
      rw [lookupCD_setCD] at hcd
      split at hcd
      · cases hcd
        have h1 := h rid cd0 heq
        refine ⟨h1.1, h1.2.1, ?_⟩
        simp only [List.nodup_append, List.nodup_cons, List.nodup_nil]
        exact ⟨h1.2.2, ⟨by simp, trivial⟩, by simpa using hmem⟩
      · exact h k cd hcd
  · exact h k cd hcd

theorem patchHyponyms_nodup (nid : List Char) (acc : List ((List Char) × ConceptDef))
    (rid : List Char) (h : RegNodup acc) : RegNodup (patchHyponyms nid acc rid) := by
  intro k cd hcd
  unfold patchHyponyms at hcd
  split at hcd
  · rename_i cd0 heq
    split at hcd
    · exact h k cd hcd
    · rename_i hmem
      rw [lookupCD_setCD] at hcd
      split at hcd
      · cases hcd
        have h1 := h rid cd0 heq
        refine ⟨h1.1, ?_, h1.2.2⟩
        simp only [List.nodup_append, List.nodup_cons, List.nodup_nil]
        exact ⟨h1.2.1, ⟨by simp, trivial⟩, by simpa using hmem⟩
      · exact h k cd hcd
  · exact h k cd hcd

/-! ### Claim C4 -/

def c4reg : List ((List Char) × ConceptDef) :=
  [("c142".data, ⟨"ai".data, "d".data, [], [], []⟩)]

/-- C4 counterexample: calling `add_concept` with the duplicated edge list
`related=["c142","c142"]` stores the new concept (`c143`) with a
`related` list that contains duplicate entries, contradicting the claim
that after the call no edge list of any concept contains duplicates as a
result of the call. -/
theorem claimC4_counterexample :
    ((addConcept c4reg "x".data "def".data ["c142".data, "c142".data] [] []).map
        (fun r => (lookupCD r.2 r.1).map ConceptDef.related))
      = some (some ["c142".data, "c142".data])
    ∧ ¬ (["c142".data, "c142".data].Nodup) := by
  constructor
  · decide
  · decide

/-- C4 (amended): on a registry all of whose stored edge lists are
duplicate-free, a successful `add_concept` call with duplicate-free edge
arguments back-patches the inverse edge onto each referenced concept that
exists in the registry afterwards (`related` is symmetric,
hyponym/hypernym are inverse), and afterwards every edge list of every
stored concept — including the new concept's own lists — is still
duplicate-free. -/
theorem claimC4_add_concept_backpatch (cs : List ((List Char) × ConceptDef))
    (label defn : List Char) (related hyponyms hypernyms : List (List Char))
    (hr : related.Nodup) (hh : hyponyms.Nodup) (hy : hypernyms.Nodup)
    (hreg : RegNodup cs)
    (cs2 : List ((List Char) × ConceptDef)) (nid : List Char)
    (hcall : addConcept cs label defn related hyponyms hypernyms = some (cs2, nid)) :
    (∀ rid ∈ related, HasRel nid rid cs2)
    ∧ (∀ rid ∈ hyponyms, HasHyper nid rid cs2)
    ∧ (∀ rid ∈ hypernyms, HasHypo nid rid cs2)
    ∧ RegNodup cs2 := by
  unfold addConcept at hcall
  cases hnext : nextIdNum cs with
  | none => rw [hnext] at hcall; cases hcall
  | some n =>
    rw [hnext] at hcall
    simp only [Option.some.injEq, Prod.mk.injEq] at hcall
    obtain ⟨hcs2, hnid⟩ := hcall
    subst hnid
    set nid := 'c' :: natStr n with hniddef
    set cs1 := setCD nid ⟨label, defn, related, hyponyms, hypernyms⟩ cs with hcs1
    set csA := related.foldl (patchRelated nid) cs1 with hcsA
    set csB := hyponyms.foldl (patchHypernyms nid) csA with hcsB
    subst hcs2
    refine ⟨?_, ?_, ?_, ?_⟩
    · intro rid hmem
      have hA : HasRel nid rid csA :=
        foldl_estab (patchRelated nid) (HasRel nid rid) rid
          (fun acc x h => patchRelated_pres nid rid acc x h)
          (fun acc => patchRelated_estab nid acc rid) related cs1 hmem
      have hB : HasRel nid rid csB :=
        foldl_pres (patchHypernyms nid) (HasRel nid rid)
          (fun acc x h => patchHypernyms_presRel nid rid acc x h) hyponyms csA hA
      exact foldl_pres (patchHyponyms nid) (HasRel nid rid)
        (fun acc x h => patchHyponyms_presRel nid rid acc x h) hypernyms csB hB
    · intro rid hmem
      have hB : HasHyper nid rid csB :=
        foldl_estab (patchHypernyms nid) (HasHyper nid rid) rid
          (fun acc x h => patchHypernyms_presHyper nid rid acc x h)
          (fun acc => patchHypernyms_estab nid acc rid) hyponyms csA hmem
      exact foldl_pres (patchHyponyms nid) (HasHyper nid rid)
        (fun acc x h => patchHyponyms_presHyper nid rid acc x h) hypernyms csB hB
    · intro rid hmem
      exact foldl_estab (patchHyponyms nid) (HasHypo nid rid) rid
        (fun acc x h => by
          intro cd hcd
          unfold patchHyponyms at hcd
          split at hcd
          · rename_i cd0 heq
            split at hcd
            · exact h cd hcd
            · rw [lookupCD_setCD] at hcd
              split at hcd
              · cases hcd
                simp
              · exact h cd hcd
          · exact h cd hcd)
        (fun acc => patchHyponyms_estab nid acc rid) hypernyms csB hmem
    · have h1 : RegNodup cs1 := by
        intro k cd hcd
        rw [hcs1, lookupCD_setCD] at hcd
        by_cases he : nid = k
        · rw [if_pos he] at hcd
          cases hcd
          exact ⟨hr, hh, hy⟩
        · rw [if_neg he] at hcd
          exact hreg k cd hcd
      have hA : RegNodup csA :=
        foldl_pres (patchRelated nid) RegNodup
          (fun acc x h => patchRelated_nodup nid acc x h) related cs1 h1
      have hB : RegNodup csB :=
        foldl_pres (patchHypernyms nid) RegNodup
          (fun acc x h => patchHypernyms_nodup nid acc x h) hyponyms csA hA
      exact foldl_pres (patchHyponyms nid) RegNodup
        (fun acc x h => patchHyponyms_nodup nid acc x h) hypernyms csB hB

/-- Witness for C4: adding `x` with `related=["c142"]` to a registry
containing `c142` leaves `c142`'s related list containing the new id
`c143` (the spec's concrete scenario 3). -/
theorem claimC4_witness :
    ('c' :: natStr 143)
      ∈ (match lookupCD "c142".data
            (addConcept c4reg "x".data "def".data ["c142".data] [] []).toList.head!.1 with
         | some cd => cd.related
         | none => []) := by
  have h := claimC4_add_concept_backpatch c4reg "x".data "def".data
    ["c142".data] [] [] (by decide) (by decide) (by decide)
    (by
      intro k cd hcd
      have := lookupCD_mem k cd c4reg hcd
      simp only [c4reg, List.mem_singleton, Prod.mk.injEq] at this
      rw [this.2]
      exact ⟨List.nodup_nil, List.nodup_nil, List.nodup_nil⟩)
    ((addConcept c4reg "x".data "def".data ["c142".data] [] []).toList.head!.1)
    ('c' :: natStr 143) (by decide)
  cases hl : lookupCD "c142".data
      (addConcept c4reg "x".data "def".data ["c142".data] [] []).toList.head!.1 with
  | none => exact absurd hl (by decide)
  | some cd =>
    show ('c' :: natStr 143) ∈ cd.related
    exact h.1 "c142".data (List.mem_singleton.mpr rfl) cd hl


/-! ### Claim C5 -/

/-- C5: parsing a relation body that contains a quantifier token
(`@v1.0{~r{$q}}`) aborts with the positioned "Unexpected token in
relation" parse error, while parsing a concept body containing the same
quantifier token (`@v1.0{#c{$q}}`) succeeds and attaches the quantifier
as a child of the concept. -/
theorem claimC5_relation_body_rejects_quantifier :
    (parserRun (tokenize "@v1.0\x7b~r\x7b$q\x7d\x7d".data)).2
      = ["Error at line 1, column 10: Unexpected token in relation: $q".data,
         "Error at line 1, column 10: Unexpected token in relation: $q".data]
    ∧ (parserRun (tokenize "@v1.0\x7b#c\x7b$q\x7d\x7d".data)).2 = []
    ∧ (parserRun (tokenize "@v1.0\x7b#c\x7b$q\x7d\x7d".data)).1
      = AST.node .MESSAGE none
          [AST.node .VERSION (some "@v1.0".data) [] [],
           AST.node .CONCEPT (some "#c".data)
             [AST.node .QUANTIFIER (some "$q".data) [] []] []] [] := by
  exact ⟨by decide, by decide, by decide⟩

/-! ### Split lemmas for claim C8 -/

theorem takeWhile_of_not_mem (c : Char) (s : List Char) (h : c ∉ s) :
    s.takeWhile (fun x => x ≠ c) = s := by
  induction s with
  | nil => rfl
  | cons x t ih =>
    simp only [List.mem_cons, not_or] at h
    have hxc : x ≠ c := fun he => h.1 he.symm
    have hd : decide (x ≠ c) = true := by simp [hxc]
    rw [List.takeWhile_cons, hd, if_pos rfl, ih h.2]

theorem pySplit_ne_nil (c : Char) : ∀ s, pySplit c s ≠ []
  | [] => by simp [pySplit]
  | x :: t => by
    rw [pySplit]
    cases h : pySplit c t with
    | nil => exact absurd h (pySplit_ne_nil c t)
    | cons a b =>
      show (if x = c then [] :: a :: b else (x :: a) :: b) ≠ []
      split <;> simp

theorem pySplit_mem_sep (c : Char) :
    ∀ s : List Char, c ∈ s →
      pySplit c s
        = s.takeWhile (fun x => x ≠ c) :: pySplit c ((s.dropWhile (fun x => x ≠ c)).tail)
  | [] => fun h => absurd h (List.not_mem_nil c)
  | x :: t => by
    intro hmem
    by_cases hx : x = c
    · subst hx
      rw [pySplit]
      cases h : pySplit x t with
      | nil => exact absurd h (pySplit_ne_nil x t)
      | cons h2 t2 =>
        simp [List.takeWhile_cons, List.dropWhile_cons, h]
    · have hmt : c ∈ t := by
        rcases List.mem_cons.mp hmem with h | h
        · exact absurd h.symm hx
        · exact h
      rw [pySplit, pySplit_mem_sep c t hmt]
      simp [hx, List.takeWhile_cons, List.dropWhile_cons]

theorem pySplit_head (c : Char) (s : List Char) :
    ∃ t, pySplit c s = s.takeWhile (fun x => x ≠ c) :: t := by
  by_cases h : c ∈ s
  · exact ⟨_, pySplit_mem_sep c s h⟩
  · rw [pySplit_no_sep c s h, takeWhile_of_not_mem c s h]
    exact ⟨[], rfl⟩

theorem vGetEs_append (k : List Char) :
    ∀ l1 l2, vGetEs k (l1 ++ l2)
      = match vGetEs k l1 with
        | some v => some v
        | none => vGetEs k l2
  | [], l2 => by simp [vGetEs]
  | (k2, v2) :: t, l2 => by
    by_cases h : k2 = k <;> simp [vGetEs, h, vGetEs_append k t l2]

/-! ### Claim C8 -/

/-- C8 counterexample: lowering the concept value `#c1~a~b` stores
qualifier `"a"` (the slice between the first and second separator), not
the entire remainder `"a~b"` after the first separator as the claim
states. -/
theorem claimC8_counterexample :
    vGet (buildIR (AST.node .CONCEPT (some "#c1~a~b".data) [] [])) kQualifier
        = some (Val.str "a".data)
    ∧ vGet (buildIR (AST.node .CONCEPT (some "#c1~a~b".data) [] [])) kQualifier
        ≠ some (Val.str "a~b".data) := by
  exact ⟨by decide, by decide⟩

/-- C8 (amended): for every Concept syntax node with a non-empty value,
lowering sets `id` to the part of the value (sans the leading sigil
character) before the first qualifier separator, and sets `qualifier` —
present exactly when a separator occurs — to the segment strictly between
the first separator and the next separator (or the end); any text after a
second separator is dropped. -/
theorem claimC8_concept_qualifier_split (v : List Char) (ch : List AST)
    (at_ : List ((List Char) × (List Char))) (hv : v ≠ []) :
    vGet (buildIR (AST.node .CONCEPT (some v) ch at_)) kId
      = some (Val.str ((v.drop 1).takeWhile (fun c => c ≠ '~')))
    ∧ (('~' ∈ v.drop 1) →
        vGet (buildIR (AST.node .CONCEPT (some v) ch at_)) kQualifier
          = some (Val.str
              ((((v.drop 1).dropWhile (fun c => c ≠ '~')).tail).takeWhile (fun c => c ≠ '~'))))
    ∧ (('~' ∉ v.drop 1) →
        vGet (buildIR (AST.node .CONCEPT (some v) ch at_)) kQualifier = none) := by
  have hfuel : 2 * asize (AST.node .CONCEPT (some v) ch at_) + 2
      = (2 * asize (AST.node .CONCEPT (some v) ch at_) + 1) + 1 := rfl
  rw [buildIR, hfuel, buildF]
  simp only [hv, if_neg (by simpa using hv)]
  by_cases hsep : '~' ∈ v.drop 1
  · obtain ⟨t2, ht2⟩ := pySplit_head '~' ((v.drop 1).dropWhile (fun x => x ≠ '~')).tail
    rw [pySplit_mem_sep '~' (v.drop 1) hsep, ht2]
    refine ⟨?_, fun _ => ?_, fun h => absurd hsep h⟩
    · cases hch : ch.isEmpty <;>
        simp [vGet, vGetEs_append, vGetEs, kType, kId, kQualifier, kChildren, hch]
    · cases hch : ch.isEmpty <;>
        simp [vGet, vGetEs_append, vGetEs, kType, kId, kQualifier, kChildren, hch]
  · rw [pySplit_no_sep '~' (v.drop 1) hsep, takeWhile_of_not_mem '~' (v.drop 1) hsep]
    refine ⟨?_, fun h => absurd h hsep, fun _ => ?_⟩
    · cases hch : ch.isEmpty <;>
        simp [vGet, vGetEs_append, vGetEs, kType, kId, kQualifier, kChildren, hch]
    · cases hch : ch.isEmpty <;>
        simp [vGet, vGetEs_append, vGetEs, kType, kId, kQualifier, kChildren, hch]

/-- Witness for C8 at the value `#c501~approaches`. -/
theorem claimC8_witness :
    vGet (buildIR (AST.node .CONCEPT (some "#c501~approaches".data) [] [])) kId
        = some (Val.str "c501".data)
    ∧ vGet (buildIR (AST.node .CONCEPT (some "#c501~approaches".data) [] [])) kQualifier
        = some (Val.str "approaches".data) := by
  have h := claimC8_concept_qualifier_split "#c501~approaches".data [] [] (by decide)
  exact ⟨by decide, by decide⟩

/-! ### Claim C7 -/

/-- Modelled from the claim's wording only (not from the source, which
checks no digits): the value begins with the concept sigil, then `c`,
then a non-empty digit run, and carries no qualifier separator. -/
def specNumericCondB (s : List Char) : Bool :=
  ['#', 'c'].isPrefixOf s && s.drop 2 ≠ [] && (s.drop 2).all isDigitP && !s.contains '~'

/-- C7 counterexample: on the concept value `#cat` (no digits after `#c`)
with a non-empty registry not containing `cat`, the checker emits the
unknown-concept warning even though the claim's condition ("sigil, `c`,
digits") is false — the code only tests `startswith('#c')`. -/
theorem claimC7_counterexample :
    (checkConcept [("c142".data, Val.dict [])]
        (AST.node .CONCEPT (some "#cat".data) [] [])).2
      = ["Unknown concept ID: cat".data]
    ∧ specNumericCondB "#cat".data = false := by
  exact ⟨by decide, by decide⟩

/-- C7 (amended): for every syntax node and non-empty registry,
`_check_concept` never produces an error, and it emits the (single)
unknown-concept warning exactly when the node's value begins with `#c`
(with no digit requirement), contains no qualifier separator, and the
bare id (sigil stripped) is absent from the registry. -/
theorem claimC7_unknown_concept_warning (space : List ((List Char) × Val)) (nd : AST)
    (hne : space ≠ []) :
    (checkConcept space nd).1 = []
    ∧ ((checkConcept space nd).2 ≠ [] ↔
        ∃ s, astVal nd = some s ∧ ['#', 'c'].isPrefixOf s = true
          ∧ s.contains '~' = false ∧ vGetEs (s.drop 1) space = none)
    ∧ (∀ s, astVal nd = some s → (checkConcept space nd).2 ≠ [] →
        (checkConcept space nd).2 = ["Unknown concept ID: ".data ++ s.drop 1]) := by
  refine ⟨rfl, ?_, ?_⟩
  · cases hval : astVal nd with
    | none => simp [checkConcept, hval]
    | some s =>
      simp only [checkConcept, hval]
      constructor
      · intro hne2
        by_cases h1 : (['#', 'c'].isPrefixOf s && !s.contains '~') = true
        · rw [if_pos h1] at hne2
          by_cases h2 : (decide (space ≠ []) && (vGetEs (s.drop 1) space).isNone) = true
          · simp only [Bool.and_eq_true, decide_eq_true_eq,
              Option.isNone_iff_eq_none] at h2
            simp only [Bool.and_eq_true, Bool.not_eq_true'] at h1
            exact ⟨s, rfl, h1.1, h1.2, h2.2⟩
          · rw [if_neg h2] at hne2
            exact absurd rfl hne2
        · rw [if_neg h1] at hne2
          exact absurd rfl hne2
      · rintro ⟨s2, hs2, hp, hc, hl⟩
        have hse : s = s2 := Option.some.inj hs2
        subst hse
        have h1 : (['#', 'c'].isPrefixOf s && !s.contains '~') = true := by
          rw [hp, hc]
          rfl
        rw [if_pos h1]
        have h2 : (decide (space ≠ []) && (vGetEs (s.drop 1) space).isNone) = true := by
          rw [hl]
          simp [hne]
        rw [if_pos h2]
        simp
  · intro s hval2 hne2
    simp only [checkConcept, hval2] at hne2 ⊢
    split at hne2
    · rename_i h1
      rw [if_pos h1]
      split at hne2
      · rename_i h2
        rw [if_pos h2]
      · exact absurd rfl hne2
    · exact absurd rfl hne2

/-- Witness for C7 on a one-entry registry and the value `#c999`. -/
theorem claimC7_witness :
    ((checkConcept [("c142".data, Val.dict [])]
        (AST.node .CONCEPT (some "#c999".data) [] [])).2 ≠ []) := by
  have h := claimC7_unknown_concept_warning [("c142".data, Val.dict [])]
    (AST.node .CONCEPT (some "#c999".data) [] []) (by decide)
  exact h.2.1.mpr ⟨"#c999".data, rfl, by decide, by decide, by decide⟩

/-! ### Claim C1 -/

/-- A syntactically valid message exercising every node kind: concepts,
a relation, a quantifier, a reference, and a quantifier property
identifier (`x`). -/
def c1Text : List Char :=
  "@v1.0\x7b#c1\x7b$q\x7bx\x7d\x7d~r\x7b#c2\x7d^prev1\x7d".data

/-- The printed canonicalized lowering of `c1Text`. -/
def c1Out : List Char :=
  genCode (canonicalize "0".data (buildIR (parserRun (tokenize c1Text)).1))

/-- C1: evaluation of the pipeline at the failing input.  Both the
original text and the printed output parse without errors, but the
printer emits nothing for the quantifier's Property node (the default
branch of `_generate_node` returns the empty string), so the property
identifier `x` is silently dropped from the output and the reparsed
lowering differs — even after canonicalization — from the original
lowering.  The claimed round-trip property fails on every message that
contains a quantifier property identifier. -/
theorem claimC1_roundtrip_drops_properties :
    (parserRun (tokenize c1Text)).2 = []
    ∧ (parserRun (tokenize c1Out)).2 = []
    ∧ ('x' ∈ c1Text ∧ 'x' ∉ c1Out)
    ∧ canonicalize "0".data (buildIR (parserRun (tokenize c1Out)).1)
        ≠ canonicalize "0".data (buildIR (parserRun (tokenize c1Text)).1) := by
  exact ⟨by decide, by decide, ⟨by decide, by decide⟩, by decide⟩


/-! ### Error-shape lemmas for claim C6 -/

/-- The format of every message produced by `Parser._error`. -/
def errFmt (l c : Nat) (m : List Char) : List Char :=
  "Error at line ".data ++ natStr l ++ ", column ".data ++ natStr c ++ ": ".data ++ m

/-- A positioned parser error message. -/
def EShape (e : List Char) : Prop :=
  ∃ l c m, e = errFmt l c m

theorem errAt_shape (t : Token) (m : List Char) : EShape (errAt t m) :=
  ⟨t.line, t.column, m, rfl⟩

theorem perr_inj {α : Type} {e2 e : List Char}
    (h : (perr e2 : Option (Except (List Char) α)) = some (.error e)) : e2 = e := by
  simpa [perr] using h

theorem pok_ne {α : Type} (a : α) (e : List Char) :
    pok a ≠ some (Except.error e) := by
  simp [pok]

theorem consumeT_err {ty : TokTy} {msg : List Char} {ts : List Token} {e : List Char}
    (h : consumeT ty msg ts = .error e) : EShape e := by
  unfold consumeT at h
  split at h
  · cases h
  · injection h with h1
    exact ⟨(peekT ts).line, (peekT ts).column, msg, h1.symm⟩

theorem pbind_err_cases {α β : Type} (x : Option (Except (List Char) α))
    (g : α → Option (Except (List Char) β)) (e : List Char)
    (h : pbind x g = some (.error e)) :
    x = some (.error e) ∨ ∃ a, x = some (.ok a) ∧ g a = some (.error e) := by
  cases x with
  | none => exact absurd h (by simp [pbind])
  | some r =>
    cases r with
    | error e2 =>
      simp only [pbind] at h
      injection h with h1
      injection h1 with h2
      subst h2
      exact Or.inl rfl
    | ok a => exact Or.inr ⟨a, rfl, h⟩

/-- Error propagation through `pbind`: if both the first computation and
the continuation only produce positioned errors, so does the bind. -/
theorem pbind_shape {α β : Type} (sub : Option (Except (List Char) α))
    (g : α → Option (Except (List Char) β)) (e : List Char)
    (hsub : ∀ e2, sub = some (.error e2) → EShape e2)
    (hg : ∀ a e2, g a = some (.error e2) → EShape e2)
    (h : pbind sub g = some (.error e)) : EShape e := by
  rcases pbind_err_cases _ _ _ h with h2 | ⟨a, _, hg2⟩
  · exact hsub e h2
  · exact hg a e hg2

/-- Every error the recursive-descent functions can raise is a positioned
message built by `Parser._error`. -/
theorem parser_errors_shaped : ∀ fuel : Nat,
    (∀ ts e, pMessage fuel ts = some (.error e) → EShape e)
    ∧ (∀ ts e, pMsgItems fuel ts = some (.error e) → EShape e)
    ∧ (∀ v ts e, pConcept fuel v ts = some (.error e) → EShape e)
    ∧ (∀ ts e, pConceptItems fuel ts = some (.error e) → EShape e)
    ∧ (∀ v ts e, pRelation fuel v ts = some (.error e) → EShape e)
    ∧ (∀ ts e, pRelationItems fuel ts = some (.error e) → EShape e)
    ∧ (∀ v ts e, pQuantifier fuel v ts = some (.error e) → EShape e)
    ∧ (∀ ts e, pQuantItems fuel ts = some (.error e) → EShape e) := by
  intro fuel
  induction fuel with
  | zero =>
    refine ⟨?_, ?_, ?_, ?_, ?_, ?_, ?_, ?_⟩ <;> intros <;> simp_all
      [pMessage, pMsgItems, pConcept, pConceptItems, pRelation, pRelationItems,
       pQuantifier, pQuantItems]
  | succ f ih =>
    obtain ⟨ihM, ihMI, ihC, ihCI, ihR, ihRI, ihQ, ihQI⟩ := ih
    refine ⟨?_, ?_, ?_, ?_, ?_, ?_, ?_, ?_⟩
    · intro ts e h
      simp only [pMessage] at h
      split at h
      · split at h
        · rename_i heq
          rw [perr_inj h] at heq
          exact consumeT_err heq
        · refine pbind_shape _ _ e (fun e2 he => ihMI _ e2 he) ?_ h
          intro p e2 hg
          split at hg
          · rename_i heq
            rw [perr_inj hg] at heq
            exact consumeT_err heq
          · exact absurd hg (pok_ne _ _)
      · rw [← perr_inj h]
        exact errAt_shape _ _
    · intro ts e h
      simp only [pMsgItems] at h
      split at h
      · exact absurd h (pok_ne _ _)
      · split at h
        · exact pbind_shape _ _ e (fun e2 he => ihC _ _ e2 he)
            (fun p e2 hg => pbind_shape _ _ e2 (fun e3 he => ihMI _ e3 he)
              (fun q e3 hg2 => absurd hg2 (pok_ne _ _)) hg) h
        · split at h
          · exact pbind_shape _ _ e (fun e2 he => ihR _ _ e2 he)
              (fun p e2 hg => pbind_shape _ _ e2 (fun e3 he => ihMI _ e3 he)
                (fun q e3 hg2 => absurd hg2 (pok_ne _ _)) hg) h
          · split at h
            · exact pbind_shape _ _ e (fun e2 he => ihQ _ _ e2 he)
                (fun p e2 hg => pbind_shape _ _ e2 (fun e3 he => ihMI _ e3 he)
                  (fun q e3 hg2 => absurd hg2 (pok_ne _ _)) hg) h
            · split at h
              · exact pbind_shape _ _ e (fun e2 he => ihMI _ e2 he)
                  (fun q e2 hg => absurd hg (pok_ne _ _)) h
              · rw [← perr_inj h]
                exact errAt_shape _ _
    · intro v ts e h
      simp only [pConcept] at h
      split at h
      · refine pbind_shape _ _ e (fun e2 he => ihCI _ e2 he) ?_ h
        intro p e2 hg
        split at hg
        · rename_i heq
          rw [perr_inj hg] at heq
          exact consumeT_err heq
        · exact absurd hg (pok_ne _ _)
      · exact absurd h (pok_ne _ _)
    · intro ts e h
      simp only [pConceptItems] at h
      split at h
      · exact absurd h (pok_ne _ _)
      · split at h
        · exact pbind_shape _ _ e (fun e2 he => ihC _ _ e2 he)
            (fun p e2 hg => pbind_shape _ _ e2 (fun e3 he => ihCI _ e3 he)
              (fun q e3 hg2 => absurd hg2 (pok_ne _ _)) hg) h
        · split at h
          · exact pbind_shape _ _ e (fun e2 he => ihR _ _ e2 he)
              (fun p e2 hg => pbind_shape _ _ e2 (fun e3 he => ihCI _ e3 he)
                (fun q e3 hg2 => absurd hg2 (pok_ne _ _)) hg) h
          · split at h
            · exact pbind_shape _ _ e (fun e2 he => ihQ _ _ e2 he)
                (fun p e2 hg => pbind_shape _ _ e2 (fun e3 he => ihCI _ e3 he)
                  (fun q e3 hg2 => absurd hg2 (pok_ne _ _)) hg) h
            · split at h
              · exact pbind_shape _ _ e (fun e2 he => ihCI _ e2 he)
                  (fun q e2 hg => absurd hg (pok_ne _ _)) h
              · rw [← perr_inj h]
                exact errAt_shape _ _
    · intro v ts e h
      simp only [pRelation] at h
      split at h
      · refine pbind_shape _ _ e (fun e2 he => ihRI _ e2 he) ?_ h
        intro p e2 hg
        split at hg
        · rename_i heq
          rw [perr_inj hg] at heq
          exact consumeT_err heq
        · exact absurd hg (pok_ne _ _)
      · exact absurd h (pok_ne _ _)
    · intro ts e h
      simp only [pRelationItems] at h
      split at h
      · exact absurd h (pok_ne _ _)
      · split at h
        · exact pbind_shape _ _ e (fun e2 he => ihC _ _ e2 he)
            (fun p e2 hg => pbind_shape _ _ e2 (fun e3 he => ihRI _ e3 he)
              (fun q e3 hg2 => absurd hg2 (pok_ne _ _)) hg) h
        · split at h
          · exact pbind_shape _ _ e (fun e2 he => ihR _ _ e2 he)
              (fun p e2 hg => pbind_shape _ _ e2 (fun e3 he => ihRI _ e3 he)
                (fun q e3 hg2 => absurd hg2 (pok_ne _ _)) hg) h
          · split at h
            · exact pbind_shape _ _ e (fun e2 he => ihRI _ e2 he)
                (fun q e2 hg => absurd hg (pok_ne _ _)) h
            · rw [← perr_inj h]
              exact errAt_shape _ _
    · intro v ts e h
      simp only [pQuantifier] at h
      split at h
      · refine pbind_shape _ _ e (fun e2 he => ihQI _ e2 he) ?_ h
        intro p e2 hg
        split at hg
        · rename_i heq
          rw [perr_inj hg] at heq
          exact consumeT_err heq
        · exact absurd hg (pok_ne _ _)
      · exact absurd h (pok_ne _ _)
    · intro ts e h
      simp only [pQuantItems] at h
      split at h
      · exact absurd h (pok_ne _ _)
      · split at h
        · exact pbind_shape _ _ e (fun e2 he => ihC _ _ e2 he)
            (fun p e2 hg => pbind_shape _ _ e2 (fun e3 he => ihQI _ e3 he)
              (fun q e3 hg2 => absurd hg2 (pok_ne _ _)) hg) h
        · split at h
          · exact pbind_shape _ _ e (fun e2 he => ihQ _ _ e2 he)
              (fun p e2 hg => pbind_shape _ _ e2 (fun e3 he => ihQI _ e3 he)
                (fun q e3 hg2 => absurd hg2 (pok_ne _ _)) hg) h
          · split at h
            · exact pbind_shape _ _ e (fun e2 he => ihQI _ e2 he)
                (fun q e2 hg => absurd hg (pok_ne _ _)) h
            · rw [← perr_inj h]
              exact errAt_shape _ _

/-! ### Claim C6 -/

/-- C6: for every token stream (EOF-terminated, as all lexer output is) on
which the parser meets a structural violation — i.e. the internal
recursive descent raises an error `e` — the recorded message is a
positioned `Error at line …, column …: …` string, parsing aborts at that
first violation (the error list holds only that message, recorded by
`_error` and re-recorded by `parse`'s exception handler), and the parse
call returns the degenerate `Message` node carrying the error text as its
`error` attribute with no children rather than a partial tree. -/
theorem claimC6_parser_error_policy (ts : List Token) (e : List Char)
    (heof : (ts.filter (fun t => t.ty != TokTy.WHITESPACE)).any
        (fun t => t.ty == TokTy.EOF) = true)
    (h : pMessage ((ts.filter (fun t => t.ty != TokTy.WHITESPACE)).length + 1)
        (ts.filter (fun t => t.ty != TokTy.WHITESPACE)) = some (.error e)) :
    parserRun ts
      = (AST.node .MESSAGE (some "Error".data) [] [("error".data, e)], [e, e])
    ∧ EShape e := by
  constructor
  · unfold parserRun
    rw [h]
    rfl
  · exact (parser_errors_shaped _).1 _ e h

/-- Witness for C6: the one-token stream `[EOF]` has no version marker;
the parser aborts with the positioned missing-version error. -/
theorem claimC6_witness :
    parserRun [⟨TokTy.EOF, [], 1, 1⟩]
      = (AST.node .MESSAGE (some "Error".data) []
          [("error".data, "Error at line 1, column 1: Expected version marker (@v1.0)".data)],
         ["Error at line 1, column 1: Expected version marker (@v1.0)".data,
          "Error at line 1, column 1: Expected version marker (@v1.0)".data]) := by
  have h := claimC6_parser_error_policy [⟨TokTy.EOF, [], 1, 1⟩]
    "Error at line 1, column 1: Expected version marker (@v1.0)".data
    (by decide) (by rfl)
  exact h.1


/-! ### Order lemmas for the canonical content sort (claims C2, C9) -/

theorem strLtB_irrefl : ∀ a, strLtB a a = false
  | [] => rfl
  | c :: t => by simp [strLtB, strLtB_irrefl t]

theorem strLtB_asymm : ∀ a b, strLtB a b = true → strLtB b a = false
  | [], [] => by intro h; simp [strLtB] at h
  | [], _ :: _ => by intro _; rfl
  | _ :: _, [] => by intro h; simp [strLtB] at h
  | a :: as1, b :: bs1 => by
    intro h
    simp only [strLtB] at h ⊢
    by_cases h1 : a < b
    · rw [if_neg (lt_asymm h1), if_pos h1]
    · by_cases h2 : b < a
      · rw [if_neg h1, if_pos h2] at h
        cases h
      · rw [if_neg h1, if_neg h2] at h
        rw [if_neg h2, if_neg h1]
        exact strLtB_asymm as1 bs1 h

theorem strLtB_eq_of_not : ∀ a b, strLtB a b = false → strLtB b a = false → a = b
  | [], [] => by intros; rfl
  | [], _ :: _ => by intro h _; simp [strLtB] at h
  | _ :: _, [] => by intro _ h; simp [strLtB] at h
  | a :: as1, b :: bs1 => by
    intro h1 h2
    simp only [strLtB] at h1 h2
    by_cases hab : a < b
    · rw [if_pos hab] at h1
      cases h1
    · by_cases hba : b < a
      · rw [if_pos hba] at h2
        cases h2
      · have he : a = b := le_antisymm (not_lt.mp hba) (not_lt.mp hab)
        subst he
        rw [if_neg hab, if_neg hab] at h1 h2
        rw [strLtB_eq_of_not as1 bs1 h1 h2]

theorem strLtB_trans : ∀ a b c, strLtB a b = true → strLtB b c = true → strLtB a c = true
  | [], [], _ => by intro h _; simp [strLtB] at h
  | [], _ :: _, [] => by intro _ h; simp [strLtB] at h
  | [], _ :: _, _ :: _ => by intros; rfl
  | _ :: _, [], _ => by intro h _; simp [strLtB] at h
  | _ :: _, _ :: _, [] => by intro _ h; simp [strLtB] at h
  | a :: as1, b :: bs1, c :: cs1 => by
    intro h1 h2
    simp only [strLtB] at h1 h2 ⊢
    by_cases hab : a < b
    · by_cases hbc : b < c
      · rw [if_pos (lt_trans hab hbc)]
      · by_cases hcb : c < b
        · rw [if_neg hbc, if_pos hcb] at h2
          cases h2
        · have he : b = c := le_antisymm (not_lt.mp hcb) (not_lt.mp hbc)
          subst he
          rw [if_pos hab]
    · by_cases hba : b < a
      · rw [if_neg hab, if_pos hba] at h1
        cases h1
      · have he : a = b := le_antisymm (not_lt.mp hba) (not_lt.mp hab)
        subst he
        rw [if_neg hab, if_neg hab] at h1
        by_cases hac : a < c
        · rw [if_pos hac]
        · by_cases hca : c < a
          · rw [if_neg hac, if_pos hca] at h2
            cases h2
          · rw [if_neg hac, if_neg hca] at h2 ⊢
            exact strLtB_trans as1 bs1 cs1 h1 h2

theorem keyLtB_irrefl (x : List Char × List Char × List Char) : keyLtB x x = false := by
  simp [keyLtB, strLtB_irrefl]

theorem strLtB_ne {a b : List Char} (h : strLtB a b = true) : ¬ b = a := by
  intro he
  subst he
  rw [strLtB_irrefl] at h
  cases h

theorem keyLtB_asymm {x y : List Char × List Char × List Char}
    (h : keyLtB x y = true) : keyLtB y x = false := by
  unfold keyLtB at h ⊢
  by_cases h1 : strLtB x.1 y.1 = true
  · simp [strLtB_asymm _ _ h1, strLtB_ne h1]
  · simp only [h1, Bool.false_or, Bool.and_eq_true, Bool.or_eq_true,
      decide_eq_true_eq] at h
    obtain ⟨he1, hrest⟩ := h
    have g1 : strLtB y.1 x.1 = false := by
      rw [← he1]
      exact strLtB_irrefl _
    rcases hrest with h2 | ⟨he2, h3⟩
    · simp [g1, strLtB_asymm _ _ h2, strLtB_ne h2]
    · have g2 : strLtB y.2.1 x.2.1 = false := by
        rw [← he2]
        exact strLtB_irrefl _
      simp [g1, g2, he1, he2, strLtB_asymm _ _ h3, strLtB_irrefl]

theorem keyLtB_eq_of_not {x y : List Char × List Char × List Char}
    (h1 : keyLtB x y = false) (h2 : keyLtB y x = false) : x = y := by
  unfold keyLtB at h1 h2
  simp only [Bool.or_eq_false_iff, Bool.and_eq_false_iff, decide_eq_false_iff_not] at h1 h2
  obtain ⟨ha1, hb1⟩ := h1
  obtain ⟨ha2, hb2⟩ := h2
  have he1 : x.1 = y.1 := strLtB_eq_of_not _ _ ha1 ha2
  rcases hb1 with hb1 | hb1
  · exact absurd he1 hb1
  rcases hb2 with hb2 | hb2
  · exact absurd he1.symm hb2
  obtain ⟨hc1, hd1⟩ := hb1
  obtain ⟨hc2, hd2⟩ := hb2
  have he2 : x.2.1 = y.2.1 := strLtB_eq_of_not _ _ hc1 hc2
  rcases hd1 with hd1 | hd1
  · exact absurd he2 hd1
  rcases hd2 with hd2 | hd2
  · exact absurd he2.symm hd2
  have he3 : x.2.2 = y.2.2 := strLtB_eq_of_not _ _ hd1 hd2
  exact Prod.ext he1 (Prod.ext he2 he3)

theorem keyLtB_trans {x y z : List Char × List Char × List Char}
    (h1 : keyLtB x y = true) (h2 : keyLtB y z = true) : keyLtB x z = true := by
  unfold keyLtB at h1 h2 ⊢
  simp only [Bool.or_eq_true, Bool.and_eq_true, decide_eq_true_eq] at h1 h2 ⊢
  rcases h1 with h1 | ⟨he1, h1⟩
  · rcases h2 with h2 | ⟨he2, h2⟩
    · exact Or.inl (strLtB_trans _ _ _ h1 h2)
    · rw [← he2]
      exact Or.inl h1
  · rcases h2 with h2 | ⟨he2, h2⟩
    · rw [he1]
      exact Or.inl h2
    · refine Or.inr ⟨he1.trans he2, ?_⟩
      rcases h1 with h1 | ⟨hf1, h1⟩
      · rcases h2 with h2 | ⟨hf2, h2⟩
        · exact Or.inl (strLtB_trans _ _ _ h1 h2)
        · rw [← hf2]
          exact Or.inl h1
      · rcases h2 with h2 | ⟨hf2, h2⟩
        · rw [hf1]
          exact Or.inl h2
        · exact Or.inr ⟨hf1.trans hf2, strLtB_trans _ _ _ h1 h2⟩

theorem keyLtB_nle_trans {a b c : List Char × List Char × List Char}
    (h1 : keyLtB b a = false) (h2 : keyLtB c b = false) : keyLtB c a = false := by
  by_cases hca : keyLtB c a = true
  · by_cases hab : keyLtB a b = true
    · have hcb : keyLtB c b = true := keyLtB_trans hca hab
      rw [h2] at hcb
      cases hcb
    · have hba : b = a := keyLtB_eq_of_not h1 (by simpa using hab)
      subst hba
      rw [hca] at h2
      cases h2
  · simpa using hca

/-- The non-strict order used below: `p` may precede `q` in the sorted list. -/
def pairLeP (p q : Val × Val) : Prop :=
  pairLtB q p = false

theorem pairLe_trans {p q r : Val × Val} (h1 : pairLeP p q) (h2 : pairLeP q r) :
    pairLeP p r :=
  keyLtB_nle_trans h1 h2

theorem insP_mem (x : Val × Val) : ∀ l y, y ∈ insP x l ↔ y = x ∨ y ∈ l
  | [], y => by simp [insP]
  | z :: t, y => by
    simp only [insP]
    split
    · simp only [List.mem_cons, insP_mem x t y]
      tauto
    · simp only [List.mem_cons]

theorem insP_perm (x : Val × Val) : ∀ l, (insP x l).Perm (x :: l)
  | [] => by simp [insP]
  | z :: t => by
    simp only [insP]
    split
    · exact ((insP_perm x t).cons z).trans (List.Perm.swap x z t)
    · exact List.Perm.refl _

theorem iSortP_perm : ∀ l, (iSortP l).Perm l
  | [] => by simp [iSortP]
  | x :: t => by
    simp only [iSortP]
    exact (insP_perm x (iSortP t)).trans ((iSortP_perm t).cons x)

theorem insP_pairwise (x : Val × Val) :
    ∀ l, l.Pairwise pairLeP → (insP x l).Pairwise pairLeP
  | [], _ => by simp [insP]
  | z :: t, h => by
    simp only [insP]
    obtain ⟨hz, ht⟩ := List.pairwise_cons.mp h
    split
    · rename_i hlt
      rw [List.pairwise_cons]
      refine ⟨?_, insP_pairwise x t ht⟩
      intro y hy
      rcases (insP_mem x t y).mp hy with rfl | hmem
      · exact keyLtB_asymm hlt
      · exact hz y hmem
    · rename_i hnlt
      rw [List.pairwise_cons]
      constructor
      · intro y hy
        rcases List.mem_cons.mp hy with rfl | hmem
        · simpa [pairLeP] using hnlt
        · exact pairLe_trans (q := z) (by simpa [pairLeP] using hnlt) (hz y hmem)
      · exact h

theorem iSortP_pairwise : ∀ l, (iSortP l).Pairwise pairLeP
  | [] => by simp [iSortP]
  | x :: t => insP_pairwise x (iSortP t) (iSortP_pairwise t)

theorem insP_of_le (x : Val × Val) (l : List (Val × Val))
    (h : ∀ y ∈ l, pairLeP x y) : insP x l = x :: l := by
  cases l with
  | nil => rfl
  | cons z t =>
    simp only [insP]
    rw [if_neg fun hc => by
      have := h z (List.mem_cons_self z t)
      rw [this] at hc
      cases hc]

theorem iSortP_of_sorted : ∀ l, l.Pairwise pairLeP → iSortP l = l
  | [], _ => rfl
  | x :: t, h => by
    obtain ⟨hx, ht⟩ := List.pairwise_cons.mp h
    simp only [iSortP]
    rw [iSortP_of_sorted t ht, insP_of_le x t hx]

/-- Two sorted lists that are permutations of each other and have pairwise
distinct sort keys are equal. -/
theorem sorted_perm_eq (l1 l2 : List (Val × Val))
    (hp : l1.Perm l2)
    (hs1 : l1.Pairwise pairLeP) (hs2 : l2.Pairwise pairLeP)
    (hk : (l1.map (fun p => sortKeyV p.1)).Nodup) : l1 = l2 := by
  have hk2 : l1.Pairwise (fun p q => sortKeyV p.1 ≠ sortKeyV q.1) := by
    rw [List.Nodup, List.pairwise_map] at hk
    exact hk
  have hk2b : l2.Pairwise (fun p q => sortKeyV p.1 ≠ sortKeyV q.1) := by
    have hn2 : (l2.map (fun p => sortKeyV p.1)).Nodup := (hp.map _).nodup hk
    rw [List.Nodup, List.pairwise_map] at hn2
    exact hn2
  have hstrict1 : l1.Pairwise (fun p q => pairLtB p q = true) := by
    refine (hs1.and hk2).imp ?_
    rintro p q ⟨hle, hne⟩
    by_cases h : pairLtB p q = true
    · exact h
    · exact absurd (keyLtB_eq_of_not hle (by simpa [pairLtB] using h)).symm hne
  have hstrict2 : l2.Pairwise (fun p q => pairLtB p q = true) := by
    refine (hs2.and hk2b).imp ?_
    rintro p q ⟨hle, hne⟩
    by_cases h : pairLtB p q = true
    · exact h
    · exact absurd (keyLtB_eq_of_not hle (by simpa [pairLtB] using h)).symm hne
  haveI : IsAntisymm (Val × Val) (fun p q => pairLtB p q = true) := by
    constructor
    intro p q h1 h2
    unfold pairLtB at h1 h2
    rw [keyLtB_asymm h1] at h2
    cases h2
  exact List.eq_of_perm_of_sorted hp hstrict1 hstrict2

theorem canonPairs_eq_map (a : List Char) :
    ∀ cs, canonPairs a cs = cs.map (fun x => (x, canonV a x))
  | [] => rfl
  | x :: t => by simp only [canonPairs, List.map_cons, canonPairs_eq_map a t]

/-- Sorting the filtered content pairs is invariant under permuting the
content list, provided the sort keys are pairwise distinct. -/
theorem sortedContent_eq (a : List Char) (cs cs' : List Val)
    (hperm : cs.Perm cs')
    (hnodup : (cs.map sortKeyV).Nodup) :
    iSortP ((canonPairs a cs).filter (fun p => p.1 != Val.vnone))
      = iSortP ((canonPairs a cs').filter (fun p => p.1 != Val.vnone)) := by
  have hmap : (canonPairs a cs).Perm (canonPairs a cs') := by
    rw [canonPairs_eq_map, canonPairs_eq_map]
    exact hperm.map _
  have hpf := hmap.filter (fun p => p.1 != Val.vnone)
  have hkeys1 : ((canonPairs a cs).map (fun p => sortKeyV p.1)) = cs.map sortKeyV := by
    rw [canonPairs_eq_map, List.map_map]
    rfl
  have hsub : ((canonPairs a cs).filter (fun p => p.1 != Val.vnone)).Sublist
      (canonPairs a cs) := List.filter_sublist _
  have hsubm := hsub.map (fun p => sortKeyV p.1)
  have hnd1 : (((canonPairs a cs).filter (fun p => p.1 != Val.vnone)).map
      (fun p => sortKeyV p.1)).Nodup :=
    hsubm.nodup (hkeys1 ▸ hnodup)
  have hndsorted : ((iSortP ((canonPairs a cs).filter (fun p => p.1 != Val.vnone))).map
      (fun p => sortKeyV p.1)).Nodup :=
    (((iSortP_perm _).map _).symm).nodup hnd1
  exact sorted_perm_eq _ _ (((iSortP_perm _).trans hpf).trans (iSortP_perm _).symm)
    (iSortP_pairwise _) (iSortP_pairwise _) hndsorted

theorem vGetEs_setEs_ne (k k2 : List Char) (v : Val) (hne : k2 ≠ k) :
    ∀ es, vGetEs k (setEs k2 v es) = vGetEs k es
  | [] => by simp [setEs, vGetEs, hne]
  | (k3, v3) :: t => by
    simp only [setEs]
    split
    · rename_i h3
      simp only [vGetEs]
      rw [if_neg hne, if_neg (fun he => hne (h3.symm.trans he))]
    · by_cases hk3 : k3 = k
      · simp [vGetEs, hk3]
      · simp [vGetEs, hk3, vGetEs_setEs_ne k k2 v hne t]

/-- Replacing the (first) `content` entry by a value whose transform agrees
does not change the message-entry walk. -/
theorem msgEntries_setContent (a : List Char) (cs cs' : List Val)
    (heq : iSortP ((canonPairs a cs).filter (fun p => p.1 != Val.vnone))
      = iSortP ((canonPairs a cs').filter (fun p => p.1 != Val.vnone))) :
    ∀ es, vGetEs kContent es = some (.list cs) →
      msgEntries a (setEs kContent (.list cs') es) = msgEntries a es := by
  intro es
  induction es with
  | nil => intro h; cases h
  | cons kv t ih =>
    obtain ⟨k, v⟩ := kv
    intro hget
    by_cases hk : k = kContent
    · subst hk
      simp only [vGetEs, if_pos rfl] at hget
      have hv : v = .list cs := Option.some.inj hget
      subst hv
      simp only [setEs, if_pos rfl, msgEntries]
      rw [heq]
      simp
    · simp only [vGetEs, if_neg hk] at hget
      have h1 : setEs kContent (Val.list cs') ((k, v) :: t)
          = (k, v) :: setEs kContent (Val.list cs') t := by
        simp [setEs, hk]
      have h2 : ∀ (w : Val) t2, msgEntries a ((k, w) :: t2) = (k, w) :: msgEntries a t2 := by
        intro w t2
        cases w <;> simp [msgEntries, hk]
      rw [h1, h2, h2, ih hget]

/-- Entry values are `None` or a string (the shapes whose Python sort-key
tuples always compare without raising). -/
def strOrNoneB : Option Val → Bool
  | none => true
  | some (.str _) => true
  | _ => false

def isDictB : Val → Bool
  | .dict _ => true
  | _ => false

/-- A content entry whose `type`/`id`/`name` values (when present) are
strings, so Python builds its sort key without error. -/
def entryKeyOK (v : Val) : Bool :=
  strOrNoneB (vGet v kType) && strOrNoneB (vGet v kId) && strOrNoneB (vGet v kName)

/-! ### Claim C2 -/

def c2a : Val := .dict [(kType, .str sConcept), (kId, .str ['a'])]

def c2b : Val := .dict [(kType, .str sConcept), (kId, .str ['b'])]

def c2n1 : Val := .dict [(kType, .str sConcept), (kId, .str ['a']), (kQualifier, .str ['x'])]

def c2n2 : Val := .dict [(kType, .str sConcept), (kId, .str ['a']), (kQualifier, .str ['y'])]

def c2msg (xs : List Val) : Val :=
  .dict [(kType, .str sMessage), (kVersion, .str ['1', '.', '0']), (kContent, .list xs)]

def c2conc (ys : List Val) : Val :=
  .dict [(kType, .str sConcept), (kId, .str ['c', '1']), (kChildren, .list ys)]

/-- C2 counterexample: the claim quantifies over permutations of content
lists and of each node's children lists, but (a) a concept's children are
only regrouped by kind (concepts, then relations, then the rest), never
sorted, so permuting two same-kind children changes the printed output,
and (b) the content sort key `(type, id, name)` ignores other fields such
as `qualifier`, so permuting two content entries with equal keys also
changes the printed output (Python's sort is stable). -/
theorem claimC2_counterexample :
    [c2b, c2a].Perm [c2a, c2b] ∧
    genCode (canonicalize ['0'] (c2msg [c2conc [c2b, c2a]]))
      ≠ genCode (canonicalize ['0'] (c2msg [c2conc [c2a, c2b]])) ∧
    [c2n2, c2n1].Perm [c2n1, c2n2] ∧
    genCode (canonicalize ['0'] (c2msg [c2n2, c2n1]))
      ≠ genCode (canonicalize ['0'] (c2msg [c2n1, c2n2])) :=
  ⟨List.Perm.swap c2a c2b [], by decide, List.Perm.swap c2n1 c2n2 [], by decide⟩

/-- C2 (amended): for a message IR dict whose `content` is a list of IR
node dicts with string-valued (or absent) `type`/`id`/`name` fields and
pairwise-distinct `(type, id, name)` sort keys, replacing the content list
by any permutation of it and then canonicalizing and printing yields a
string byte-identical to canonicalizing and printing the original. -/
theorem claimC2_content_order_determinism (a : List Char)
    (es : List ((List Char) × Val)) (cs cs' : List Val)
    (htype : vGetEs kType es = some (.str sMessage))
    (hget : vGetEs kContent es = some (.list cs))
    (hperm : cs.Perm cs')
    (hdict : cs.all isDictB = true)
    (hkeys : cs.all entryKeyOK = true)
    (hnodup : (cs.map sortKeyV).Nodup) :
    genCode (canonicalize a (.dict (setEs kContent (.list cs') es)))
      = genCode (canonicalize a (.dict es)) := by
  have hmsg : msgEntries a (setEs kContent (.list cs') es) = msgEntries a es :=
    msgEntries_setContent a cs cs' (sortedContent_eq a cs cs' hperm hnodup) es hget
  have htype2 : vGetEs kType (setEs kContent (.list cs') es) = some (.str sMessage) := by
    rw [vGetEs_setEs_ne kType kContent _ (by decide) es]
    exact htype
  have hc : ∀ es0, vGetEs kType es0 = some (Val.str sMessage) →
      canonV a (.dict es0)
        = .dict (withDefault kVersion (Val.str ['1', '.', '0']) (msgEntries a es0)) := by
    intro es0 h0
    simp only [canonV]
    rw [if_pos h0]
  unfold canonicalize
  rw [hc _ htype2, hc _ htype, hmsg]

def c2es : List ((List Char) × Val) :=
  [(kType, .str sMessage), (kVersion, .str ['1', '.', '0']), (kContent, .list [c2a, c2b])]

theorem claimC2_witness :
    [c2a, c2b].Perm [c2b, c2a] ∧ ([c2a, c2b].map sortKeyV).Nodup ∧
    genCode (canonicalize ['0'] (.dict (setEs kContent (.list [c2b, c2a]) c2es)))
      = genCode (canonicalize ['0'] (.dict c2es)) :=
  ⟨List.Perm.swap c2b c2a [], by decide,
    claimC2_content_order_determinism ['0'] c2es [c2a, c2b] [c2b, c2a]
      (by decide) (by decide) (List.Perm.swap c2b c2a []) (by decide) (by decide) (by decide)⟩

/-! ### Claim C9: infrastructure -/

/-- The per-kind condition under which the canonicalizer inserts no
placeholder identifier: a Concept dict already has an `id` entry and a
Relation dict already has a `name` entry. -/
def noPhDispatch (es : List ((List Char) × Val)) : Bool :=
  if vGetEs kType es = some (.str sConcept) then hasKeyEs kId es
  else if vGetEs kType es = some (.str sRelation) then hasKeyEs kName es
  else true

mutual
/-- Placeholder-completeness, recursively: every Concept dict anywhere in
the value has an `id` and every Relation dict has a `name`. -/
def noPhV : Val → Bool
  | .dict es => noPhDispatch es && noPhD es
  | .list xs => noPhL xs
  | _ => true

def noPhL : List Val → Bool
  | [] => true
  | x :: t => noPhV x && noPhL t

def noPhD : List ((List Char) × Val) → Bool
  | [] => true
  | kv :: t => noPhV kv.2 && noPhD t
end

/-- The per-entry transform of the generic dict walk. -/
def walkG (a : List Char) : Val → Val
  | .dict es => canonV a (.dict es)
  | .list xs => canonV a (.list xs)
  | v2 => v2

/-- The transform `_optimize_message` applies to the `content` value. -/
def contTrans (a : List Char) : Val → Val
  | .list cs =>
    Val.list ((iSortP ((canonPairs a cs).filter (fun p => p.1 != Val.vnone))).map Prod.snd)
  | v2 => v2

/-- The banding regrouping of `_optimize_concept` on children pairs. -/
def bandP (l : List (Val × Val)) : List (Val × Val) :=
  l.filter (isTypeDp sConcept) ++ l.filter (isTypeDp sRelation)
    ++ l.filter (fun p => !isTypeDp sConcept p && !isTypeDp sRelation p)

/-- The transform `_optimize_concept` applies to the `children` value. -/
def childTransC (a : List Char) : Val → Val
  | .list cs =>
    Val.list ((bandP ((canonPairs a cs).filter (fun p => p.1 != Val.vnone))).map Prod.snd)
  | v2 => v2

/-- The transform `_optimize_relation` applies to the `children` value. -/
def childTransR (a : List Char) : Val → Val
  | .list cs =>
    Val.list (((canonPairs a cs).filter (fun p => p.1 != Val.vnone)).map Prod.snd)
  | v2 => v2

theorem canonV_str (a : List Char) (s : List Char) : canonV a (.str s) = .str s := by
  simp [canonV]

theorem canonV_vnone (a : List Char) : canonV a .vnone = .vnone := by
  simp [canonV]

theorem canonV_list (a : List Char) (xs : List Val) :
    canonV a (.list xs) = .list (canonL a xs) := by
  simp [canonV]

theorem canonV_dict (a : List Char) (es : List ((List Char) × Val)) :
    canonV a (.dict es) =
      (if vGetEs kType es = some (.str sMessage) then
        Val.dict (withDefault kVersion (Val.str ['1', '.', '0']) (msgEntries a es))
      else if vGetEs kType es = some (.str sConcept) then
        Val.dict (withDefault kId (Val.str ("concept_".data ++ a)) (conceptEntries a es))
      else if vGetEs kType es = some (.str sRelation) then
        Val.dict (withDefault kName (Val.str ("relation_".data ++ a)) (relEntries a es))
      else Val.dict (walkEs a es)) := by
  simp only [canonV]

theorem canonL_eq_map (a : List Char) : ∀ xs, canonL a xs = xs.map (canonV a)
  | [] => rfl
  | x :: t => by simp only [canonL, List.map_cons, canonL_eq_map a t]

theorem walkEs_cons (a : List Char) (k : List Char) (v : Val) (t : List ((List Char) × Val)) :
    walkEs a ((k, v) :: t) = (k, walkG a v) :: walkEs a t := by
  cases v <;> simp [walkEs, walkG]

theorem walkEs_eq_map (a : List Char) :
    ∀ es, walkEs a es = es.map (fun kv => (kv.1, walkG a kv.2))
  | [] => by simp [walkEs]
  | (k, v) :: t => by
    rw [walkEs_cons, walkEs_eq_map a t]
    rfl

theorem msgEntries_cons_content (a : List Char) (v : Val) (t : List ((List Char) × Val)) :
    msgEntries a ((kContent, v) :: t) = (kContent, contTrans a v) :: t := by
  cases v <;> simp [msgEntries, contTrans]

theorem msgEntries_cons_ne (a : List Char) (k : List Char) (v : Val)
    (t : List ((List Char) × Val)) (hk : k ≠ kContent) :
    msgEntries a ((k, v) :: t) = (k, v) :: msgEntries a t := by
  cases v <;> simp [msgEntries, hk]

theorem conceptEntries_cons_children (a : List Char) (v : Val) (t : List ((List Char) × Val)) :
    conceptEntries a ((kChildren, v) :: t) = (kChildren, childTransC a v) :: t := by
  cases v <;> simp [conceptEntries, childTransC, bandP]

theorem conceptEntries_cons_ne (a : List Char) (k : List Char) (v : Val)
    (t : List ((List Char) × Val)) (hk : k ≠ kChildren) :
    conceptEntries a ((k, v) :: t) = (k, v) :: conceptEntries a t := by
  cases v <;> simp [conceptEntries, hk]

theorem relEntries_cons_children (a : List Char) (v : Val) (t : List ((List Char) × Val)) :
    relEntries a ((kChildren, v) :: t) = (kChildren, childTransR a v) :: t := by
  cases v <;> simp [relEntries, childTransR]

theorem relEntries_cons_ne (a : List Char) (k : List Char) (v : Val)
    (t : List ((List Char) × Val)) (hk : k ≠ kChildren) :
    relEntries a ((k, v) :: t) = (k, v) :: relEntries a t := by
  cases v <;> simp [relEntries, hk]

theorem vGetEs_msgEntries_ne (a : List Char) (k : List Char) (hk : k ≠ kContent) :
    ∀ es, vGetEs k (msgEntries a es) = vGetEs k es
  | [] => by simp [msgEntries]
  | (k2, v) :: t => by
    by_cases h2 : k2 = kContent
    · subst h2
      rw [msgEntries_cons_content]
      have hne : ¬ (kContent = k) := fun he => hk he.symm
      simp [vGetEs, hne]
    · rw [msgEntries_cons_ne a k2 v t h2]
      by_cases hke : k2 = k
      · simp [vGetEs, hke]
      · simp [vGetEs, hke, vGetEs_msgEntries_ne a k hk t]

theorem vGetEs_conceptEntries_ne (a : List Char) (k : List Char) (hk : k ≠ kChildren) :
    ∀ es, vGetEs k (conceptEntries a es) = vGetEs k es
  | [] => by simp [conceptEntries]
  | (k2, v) :: t => by
    by_cases h2 : k2 = kChildren
    · subst h2
      rw [conceptEntries_cons_children]
      have hne : ¬ (kChildren = k) := fun he => hk he.symm
      simp [vGetEs, hne]
    · rw [conceptEntries_cons_ne a k2 v t h2]
      by_cases hke : k2 = k
      · simp [vGetEs, hke]
      · simp [vGetEs, hke, vGetEs_conceptEntries_ne a k hk t]

theorem vGetEs_relEntries_ne (a : List Char) (k : List Char) (hk : k ≠ kChildren) :
    ∀ es, vGetEs k (relEntries a es) = vGetEs k es
  | [] => by simp [relEntries]
  | (k2, v) :: t => by
    by_cases h2 : k2 = kChildren
    · subst h2
      rw [relEntries_cons_children]
      have hne : ¬ (kChildren = k) := fun he => hk he.symm
      simp [vGetEs, hne]
    · rw [relEntries_cons_ne a k2 v t h2]
      by_cases hke : k2 = k
      · simp [vGetEs, hke]
      · simp [vGetEs, hke, vGetEs_relEntries_ne a k hk t]

theorem vGetEs_map_snd {f : Val → Val} (k : List Char) :
    ∀ es, vGetEs k (es.map (fun kv => (kv.1, f kv.2))) = (vGetEs k es).map f
  | [] => by simp [vGetEs]
  | (k2, v) :: t => by
    by_cases hke : k2 = k <;> simp [vGetEs, hke, vGetEs_map_snd k t]

theorem withDefault_of_hasKey (k : List Char) (v : Val) (es : List ((List Char) × Val))
    (h : hasKeyEs k es = true) : withDefault k v es = es := by
  simp [withDefault, h]

theorem vGetEs_withDefault_ne (k k2 : List Char) (v : Val) (hne : k ≠ k2)
    (es : List ((List Char) × Val)) :
    vGetEs k (withDefault k2 v es) = vGetEs k es := by
  unfold withDefault
  split
  · rfl
  · have hx : ¬ (k2 = k) := fun he => hne he.symm
    cases h : vGetEs k es
    · rw [vGetEs_append, h]
      simp [vGetEs, hx]
    · rw [vGetEs_append, h]

theorem hasKeyEs_withDefault_self (k : List Char) (v : Val) (es : List ((List Char) × Val)) :
    hasKeyEs k (withDefault k v es) = true := by
  unfold withDefault
  split
  · assumption
  · rename_i h
    unfold hasKeyEs at h ⊢
    rw [vGetEs_append]
    rcases hv : vGetEs k es with _ | w
    · simp [hv, vGetEs]
    · rw [hv] at h
      simp at h

theorem canonV_dict_shape (a : List Char) (es : List ((List Char) × Val)) :
    ∃ fs, canonV a (.dict es) = .dict fs := by
  rw [canonV_dict]
  split
  · exact ⟨_, rfl⟩
  split
  · exact ⟨_, rfl⟩
  split
  · exact ⟨_, rfl⟩
  · exact ⟨_, rfl⟩

theorem canonV_ne_vnone (a : List Char) (x : Val) (hx : x ≠ .vnone) :
    canonV a x ≠ .vnone := by
  cases x with
  | str s => rw [canonV_str]; exact hx
  | vnone => exact absurd rfl hx
  | list xs => rw [canonV_list]; intro h; cases h
  | dict es =>
    obtain ⟨fs, hfs⟩ := canonV_dict_shape a es
    rw [hfs]
    intro h
    cases h

/-- The value-level transform of the generic walk never turns a
non-string into a string, nor changes a string. -/
theorem walkG_eq_str_iff (a : List Char) (v : Val) (s : List Char) :
    walkG a v = .str s ↔ v = .str s := by
  cases v with
  | str s2 => rw [show walkG a (.str s2) = .str s2 from rfl]
  | vnone => rw [show walkG a Val.vnone = Val.vnone from rfl]
  | list xs =>
    rw [show walkG a (.list xs) = canonV a (.list xs) from rfl, canonV_list]
    constructor <;> (intro h; cases h)
  | dict es =>
    rw [show walkG a (.dict es) = canonV a (.dict es) from rfl]
    obtain ⟨fs, hfs⟩ := canonV_dict_shape a es
    rw [hfs]
    constructor <;> (intro h; cases h)

theorem asStrD_walkG (a : List Char) (o : Option Val) (d : List Char) :
    asStrD (o.map (walkG a)) d = asStrD o d := by
  rcases o with _ | v
  · rfl
  cases v with
  | str s => rfl
  | vnone => rfl
  | list xs =>
    show asStrD (some (canonV a (.list xs))) d = asStrD (some (Val.list xs)) d
    rw [canonV_list]
    rfl
  | dict es =>
    show asStrD (some (canonV a (.dict es))) d = asStrD (some (Val.dict es)) d
    obtain ⟨fs, hfs⟩ := canonV_dict_shape a es
    rw [hfs]
    rfl

/-- Placeholder-completeness at the outermost dict only. -/
def noPhTop : Val → Bool
  | .dict es => noPhDispatch es
  | _ => true

/-- Canonicalization preserves the `(type, id, name)` sort key of any
placeholder-complete value. -/
theorem sortKeyV_canonV (a : List Char) (x : Val) (hx : noPhTop x = true) :
    sortKeyV (canonV a x) = sortKeyV x := by
  cases x with
  | str s => rw [canonV_str]
  | vnone => rw [canonV_vnone]
  | list xs => rw [canonV_list]; rfl
  | dict es =>
    rw [canonV_dict]
    by_cases h1 : vGetEs kType es = some (Val.str sMessage)
    · rw [if_pos h1]
      simp only [sortKeyV, vGet]
      rw [vGetEs_withDefault_ne kType kVersion _ (by decide),
          vGetEs_withDefault_ne kId kVersion _ (by decide),
          vGetEs_withDefault_ne kName kVersion _ (by decide),
          vGetEs_msgEntries_ne a kType (by decide),
          vGetEs_msgEntries_ne a kId (by decide),
          vGetEs_msgEntries_ne a kName (by decide)]
    · rw [if_neg h1]
      by_cases h2 : vGetEs kType es = some (Val.str sConcept)
      · rw [if_pos h2]
        have hid : hasKeyEs kId es = true := by
          have hph : noPhDispatch es = true := hx
          unfold noPhDispatch at hph
          rw [if_pos h2] at hph
          exact hph
        have hid2 : hasKeyEs kId (conceptEntries a es) = true := by
          unfold hasKeyEs
          rw [vGetEs_conceptEntries_ne a kId (by decide)]
          exact hid
        rw [withDefault_of_hasKey _ _ _ hid2]
        simp only [sortKeyV, vGet]
        rw [vGetEs_conceptEntries_ne a kType (by decide),
            vGetEs_conceptEntries_ne a kId (by decide),
            vGetEs_conceptEntries_ne a kName (by decide)]
      · rw [if_neg h2]
        by_cases h3 : vGetEs kType es = some (Val.str sRelation)
        · rw [if_pos h3]
          have hnm : hasKeyEs kName es = true := by
            have hph : noPhDispatch es = true := hx
            unfold noPhDispatch at hph
            rw [if_neg h2, if_pos h3] at hph
            exact hph
          have hnm2 : hasKeyEs kName (relEntries a es) = true := by
            unfold hasKeyEs
            rw [vGetEs_relEntries_ne a kName (by decide)]
            exact hnm
          rw [withDefault_of_hasKey _ _ _ hnm2]
          simp only [sortKeyV, vGet]
          rw [vGetEs_relEntries_ne a kType (by decide),
              vGetEs_relEntries_ne a kId (by decide),
              vGetEs_relEntries_ne a kName (by decide)]
        · rw [if_neg h3]
          simp only [sortKeyV, vGet]
          rw [walkEs_eq_map, vGetEs_map_snd, vGetEs_map_snd, vGetEs_map_snd,
              asStrD_walkG, asStrD_walkG, asStrD_walkG]

theorem noPhL_mem : ∀ xs, noPhL xs = true → ∀ x ∈ xs, noPhV x = true
  | [], _, x, hx => absurd hx (List.not_mem_nil x)
  | y :: t, h, x, hx => by
    rw [show noPhL (y :: t) = (noPhV y && noPhL t) from rfl, Bool.and_eq_true] at h
    rcases List.mem_cons.mp hx with rfl | hmem
    · exact h.1
    · exact noPhL_mem t h.2 x hmem

theorem noPhD_mem : ∀ es, noPhD es = true → ∀ kv ∈ es, noPhV kv.2 = true
  | [], _, kv, hkv => absurd hkv (List.not_mem_nil kv)
  | e :: t, h, kv, hkv => by
    rw [show noPhD (e :: t) = (noPhV e.2 && noPhD t) from rfl, Bool.and_eq_true] at h
    rcases List.mem_cons.mp hkv with rfl | hmem
    · exact h.1
    · exact noPhD_mem t h.2 kv hmem

theorem noPhV_top (x : Val) (hx : noPhV x = true) : noPhTop x = true := by
  cases x with
  | dict es =>
    rw [show noPhV (.dict es) = (noPhDispatch es && noPhD es) from rfl,
      Bool.and_eq_true] at hx
    exact hx.1
  | str s => rfl
  | vnone => rfl
  | list xs => rfl

theorem noPhV_dict_snd (es : List ((List Char) × Val)) (hx : noPhV (.dict es) = true) :
    noPhD es = true := by
  rw [show noPhV (.dict es) = (noPhDispatch es && noPhD es) from rfl,
    Bool.and_eq_true] at hx
  exact hx.2

/-- Canonicalization preserves the outcome of the `type == t` test used by
the children banding (no hypotheses: the `type` value is only rewritten
inside dicts/lists, which are never equal to a string). -/
theorem vGet_canonV_type (a : List Char) (x : Val) (t : List Char) :
    vGet (canonV a x) kType = some (Val.str t) ↔ vGet x kType = some (Val.str t) := by
  cases x with
  | str s => rw [canonV_str]
  | vnone => rw [canonV_vnone]
  | list xs => rw [canonV_list]; exact Iff.rfl
  | dict es =>
    rw [canonV_dict]
    by_cases h1 : vGetEs kType es = some (Val.str sMessage)
    · rw [if_pos h1]
      show vGetEs kType (withDefault kVersion _ (msgEntries a es)) = _ ↔ _
      rw [vGetEs_withDefault_ne kType kVersion _ (by decide),
        vGetEs_msgEntries_ne a kType (by decide)]
      exact Iff.rfl
    · rw [if_neg h1]
      by_cases h2 : vGetEs kType es = some (Val.str sConcept)
      · rw [if_pos h2]
        show vGetEs kType (withDefault kId _ (conceptEntries a es)) = _ ↔ _
        rw [vGetEs_withDefault_ne kType kId _ (by decide),
          vGetEs_conceptEntries_ne a kType (by decide)]
        exact Iff.rfl
      · rw [if_neg h2]
        by_cases h3 : vGetEs kType es = some (Val.str sRelation)
        · rw [if_pos h3]
          show vGetEs kType (withDefault kName _ (relEntries a es)) = _ ↔ _
          rw [vGetEs_withDefault_ne kType kName _ (by decide),
            vGetEs_relEntries_ne a kType (by decide)]
          exact Iff.rfl
        · rw [if_neg h3]
          show vGetEs kType (walkEs a es) = some (Val.str t) ↔ vGetEs kType es = some (Val.str t)
          rw [walkEs_eq_map, vGetEs_map_snd]
          cases ho : vGetEs kType es with
          | none => simp
          | some v =>
            show some (walkG a v) = some (Val.str t) ↔ some v = some (Val.str t)
            simp only [Option.some.injEq]
            exact walkG_eq_str_iff a v t

theorem isTypeDp_canon (a : List Char) (t : List Char) (x w w2 : Val) :
    isTypeDp t (canonV a x, w) = isTypeDp t (x, w2) := by
  show (vGet (canonV a x) kType == some (Val.str t)) = (vGet x kType == some (Val.str t))
  rw [Bool.eq_iff_iff]
  simp only [beq_iff_eq]
  exact vGet_canonV_type a x t

theorem mem_filter_canonPairs (a : List Char) (cs : List Val) (p : Val × Val)
    (hp : p ∈ (canonPairs a cs).filter (fun q => q.1 != Val.vnone)) :
    p.1 ∈ cs ∧ p.2 = canonV a p.1 ∧ p.1 ≠ Val.vnone := by
  rw [List.mem_filter, canonPairs_eq_map, List.mem_map] at hp
  obtain ⟨⟨x, hx, hxp⟩, hne⟩ := hp
  subst hxp
  refine ⟨hx, rfl, ?_⟩
  simpa using hne

theorem isTypeDp_not_conc_of_rel (p : Val × Val) (h : isTypeDp sRelation p = true) :
    isTypeDp sConcept p = false := by
  unfold isTypeDp at h ⊢
  rw [beq_iff_eq] at h
  rw [h]
  decide

theorem isTypeDp_not_rel_of_conc (p : Val × Val) (h : isTypeDp sConcept p = true) :
    isTypeDp sRelation p = false := by
  unfold isTypeDp at h ⊢
  rw [beq_iff_eq] at h
  rw [h]
  decide

theorem mem_bandP (l : List (Val × Val)) (p : Val × Val) (hp : p ∈ bandP l) : p ∈ l := by
  unfold bandP at hp
  rcases List.mem_append.mp hp with hp2 | hp2
  · rcases List.mem_append.mp hp2 with hp3 | hp3 <;> exact (List.mem_filter.mp hp3).1
  · exact (List.mem_filter.mp hp2).1

/-- Banding an already-banded list changes nothing. -/
theorem bandP_bandP (l : List (Val × Val)) : bandP (bandP l) = bandP l := by
  have hCC : (l.filter (isTypeDp sConcept)).filter (isTypeDp sConcept)
      = l.filter (isTypeDp sConcept) :=
    List.filter_eq_self.mpr fun x hx => (List.mem_filter.mp hx).2
  have hCR : (l.filter (isTypeDp sRelation)).filter (isTypeDp sConcept) = [] :=
    List.filter_eq_nil_iff.mpr fun x hx => by
      rw [isTypeDp_not_conc_of_rel x (List.mem_filter.mp hx).2]
      simp
  have hCO : (l.filter (fun p => !isTypeDp sConcept p && !isTypeDp sRelation p)).filter
      (isTypeDp sConcept) = [] :=
    List.filter_eq_nil_iff.mpr fun x hx => by
      have := (List.mem_filter.mp hx).2
      simp only [Bool.and_eq_true, Bool.not_eq_true'] at this
      rw [this.1]
      simp
  have hRC : (l.filter (isTypeDp sConcept)).filter (isTypeDp sRelation) = [] :=
    List.filter_eq_nil_iff.mpr fun x hx => by
      rw [isTypeDp_not_rel_of_conc x (List.mem_filter.mp hx).2]
      simp
  have hRR : (l.filter (isTypeDp sRelation)).filter (isTypeDp sRelation)
      = l.filter (isTypeDp sRelation) :=
    List.filter_eq_self.mpr fun x hx => (List.mem_filter.mp hx).2
  have hRO : (l.filter (fun p => !isTypeDp sConcept p && !isTypeDp sRelation p)).filter
      (isTypeDp sRelation) = [] :=
    List.filter_eq_nil_iff.mpr fun x hx => by
      have := (List.mem_filter.mp hx).2
      simp only [Bool.and_eq_true, Bool.not_eq_true'] at this
      rw [this.2]
      simp
  have hOC : (l.filter (isTypeDp sConcept)).filter
      (fun p => !isTypeDp sConcept p && !isTypeDp sRelation p) = [] :=
    List.filter_eq_nil_iff.mpr fun x hx => by
      rw [(List.mem_filter.mp hx).2]
      simp
  have hOR : (l.filter (isTypeDp sRelation)).filter
      (fun p => !isTypeDp sConcept p && !isTypeDp sRelation p) = [] :=
    List.filter_eq_nil_iff.mpr fun x hx => by
      rw [(List.mem_filter.mp hx).2]
      simp
  have hOO : (l.filter (fun p => !isTypeDp sConcept p && !isTypeDp sRelation p)).filter
      (fun p => !isTypeDp sConcept p && !isTypeDp sRelation p)
      = l.filter (fun p => !isTypeDp sConcept p && !isTypeDp sRelation p) :=
    List.filter_eq_self.mpr fun x hx => (List.mem_filter.mp hx).2
  unfold bandP
  simp only [List.filter_append]
  rw [hCC, hCR, hCO, hRC, hRR, hRO, hOC, hOR, hOO]
  simp

/-- Banding commutes with a map that preserves the type tests. -/
theorem bandP_map (l : List (Val × Val)) (f : Val × Val → Val × Val)
    (hC : ∀ p ∈ l, isTypeDp sConcept (f p) = isTypeDp sConcept p)
    (hR : ∀ p ∈ l, isTypeDp sRelation (f p) = isTypeDp sRelation p) :
    bandP (l.map f) = (bandP l).map f := by
  unfold bandP
  rw [List.filter_map, List.filter_map, List.filter_map, List.map_append, List.map_append]
  have e1 : l.filter (isTypeDp sConcept ∘ f) = l.filter (isTypeDp sConcept) :=
    List.filter_congr fun x hx => hC x hx
  have e2 : l.filter (isTypeDp sRelation ∘ f) = l.filter (isTypeDp sRelation) :=
    List.filter_congr fun x hx => hR x hx
  have e3 : l.filter ((fun p => !isTypeDp sConcept p && !isTypeDp sRelation p) ∘ f)
      = l.filter (fun p => !isTypeDp sConcept p && !isTypeDp sRelation p) :=
    List.filter_congr fun x hx => by
      show (!isTypeDp sConcept (f x) && !isTypeDp sRelation (f x)) = _
      rw [hC x hx, hR x hx]
  rw [e1, e2, e3]

theorem filter_pne_canonPairs (a : List Char) (ys : List Val)
    (h : ∀ y ∈ ys, y ≠ Val.vnone) :
    (canonPairs a ys).filter (fun p => p.1 != Val.vnone) = canonPairs a ys := by
  apply List.filter_eq_self.mpr
  intro p hp
  rw [canonPairs_eq_map, List.mem_map] at hp
  obtain ⟨y, hy, rfl⟩ := hp
  simpa using h y hy

/-- A list of pairs whose second components carry the same sort keys as
the first components, and which is already sorted, sorts to itself after
re-pairing each second component with its canonicalization. -/
theorem iSortP_second (b : List Char) (l : List (Val × Val))
    (hs : l.Pairwise pairLeP)
    (hkey : ∀ p ∈ l, sortKeyV p.2 = sortKeyV p.1) :
    iSortP ((l.map Prod.snd).map (fun y => (y, canonV b y)))
      = (l.map Prod.snd).map (fun y => (y, canonV b y)) := by
  apply iSortP_of_sorted
  rw [List.map_map, List.pairwise_map]
  refine hs.imp_of_mem ?_
  intro p q hp hq hle
  show pairLtB ((fun y => (y, canonV b y)) (Prod.snd q)) ((fun y => (y, canonV b y)) (Prod.snd p))
      = false
  show keyLtB (sortKeyV q.2) (sortKeyV p.2) = false
  rw [hkey p hp, hkey q hq]
  exact hle

theorem canonL_idem_pointwise (a b : List Char) (cs : List Val)
    (h : canonV b (canonV a (.list cs)) = canonV a (.list cs)) :
    ∀ x ∈ cs, canonV b (canonV a x) = canonV a x := by
  rw [canonV_list, canonV_list, canonL_eq_map, canonL_eq_map, List.map_map,
    Val.list.injEq, List.map_eq_map_iff] at h
  intro x hx
  exact h x hx

/-- Re-canonicalizing (and re-sorting) the canonicalized content of a
message reproduces it. -/
theorem sorted_canon_again (a b : List Char) (cs : List Val)
    (hph : noPhL cs = true)
    (helem : ∀ x ∈ cs, canonV b (canonV a x) = canonV a x) :
    (iSortP ((canonPairs b
        ((iSortP ((canonPairs a cs).filter (fun p => p.1 != Val.vnone))).map
          Prod.snd)).filter (fun p => p.1 != Val.vnone))).map Prod.snd
      = (iSortP ((canonPairs a cs).filter (fun p => p.1 != Val.vnone))).map Prod.snd := by
  have hmem : ∀ p ∈ iSortP ((canonPairs a cs).filter (fun p => p.1 != Val.vnone)),
      p.1 ∈ cs ∧ p.2 = canonV a p.1 ∧ p.1 ≠ Val.vnone := fun p hp =>
    mem_filter_canonPairs a cs p
      (((iSortP_perm ((canonPairs a cs).filter (fun p => p.1 != Val.vnone))).mem_iff).mp hp)
  have hy : ∀ y ∈ (iSortP ((canonPairs a cs).filter (fun p => p.1 != Val.vnone))).map Prod.snd,
      y ≠ Val.vnone := by
    intro y hyy
    rw [List.mem_map] at hyy
    obtain ⟨p, hp, rfl⟩ := hyy
    obtain ⟨_, hp2, hp3⟩ := hmem p hp
    rw [hp2]
    exact canonV_ne_vnone a p.1 hp3
  have hk : ∀ p ∈ iSortP ((canonPairs a cs).filter (fun p => p.1 != Val.vnone)),
      sortKeyV p.2 = sortKeyV p.1 := by
    intro p hp
    obtain ⟨hp1, hp2, _⟩ := hmem p hp
    rw [hp2]
    exact sortKeyV_canonV a p.1 (noPhV_top p.1 (noPhL_mem cs hph p.1 hp1))
  rw [filter_pne_canonPairs b _ hy, canonPairs_eq_map,
    iSortP_second b _ (iSortP_pairwise ((canonPairs a cs).filter (fun p => p.1 != Val.vnone))) hk,
    List.map_map, List.map_map]
  apply List.map_eq_map_iff.mpr
  intro p hp
  obtain ⟨hp1, hp2, _⟩ := hmem p hp
  show canonV b p.2 = p.2
  rw [hp2]
  exact helem p.1 hp1

/-- Re-canonicalizing the filtered canonicalized children of a relation
reproduces them. -/
theorem filtered_canon_again (a b : List Char) (cs : List Val)
    (helem : ∀ x ∈ cs, canonV b (canonV a x) = canonV a x) :
    ((canonPairs b (((canonPairs a cs).filter (fun p => p.1 != Val.vnone)).map
        Prod.snd)).filter (fun p => p.1 != Val.vnone)).map Prod.snd
      = ((canonPairs a cs).filter (fun p => p.1 != Val.vnone)).map Prod.snd := by
  have hmem : ∀ p ∈ (canonPairs a cs).filter (fun p => p.1 != Val.vnone),
      p.1 ∈ cs ∧ p.2 = canonV a p.1 ∧ p.1 ≠ Val.vnone := fun p hp =>
    mem_filter_canonPairs a cs p hp
  have hy : ∀ y ∈ ((canonPairs a cs).filter (fun p => p.1 != Val.vnone)).map Prod.snd,
      y ≠ Val.vnone := by
    intro y hyy
    rw [List.mem_map] at hyy
    obtain ⟨p, hp, rfl⟩ := hyy
    obtain ⟨_, hp2, hp3⟩ := hmem p hp
    rw [hp2]
    exact canonV_ne_vnone a p.1 hp3
  rw [filter_pne_canonPairs b _ hy, canonPairs_eq_map, List.map_map, List.map_map]
  apply List.map_eq_map_iff.mpr
  intro p hp
  obtain ⟨hp1, hp2, _⟩ := hmem p hp
  show canonV b p.2 = p.2
  rw [hp2]
  exact helem p.1 hp1

/-- Re-canonicalizing (and re-banding) the banded canonicalized children
of a concept reproduces them. -/
theorem banded_canon_again (a b : List Char) (cs : List Val)
    (helem : ∀ x ∈ cs, canonV b (canonV a x) = canonV a x) :
    (bandP ((canonPairs b
        ((bandP ((canonPairs a cs).filter (fun p => p.1 != Val.vnone))).map
          Prod.snd)).filter (fun p => p.1 != Val.vnone))).map Prod.snd
      = (bandP ((canonPairs a cs).filter (fun p => p.1 != Val.vnone))).map Prod.snd := by
  have hmem : ∀ p ∈ bandP ((canonPairs a cs).filter (fun p => p.1 != Val.vnone)),
      p.1 ∈ cs ∧ p.2 = canonV a p.1 ∧ p.1 ≠ Val.vnone := fun p hp =>
    mem_filter_canonPairs a cs p (mem_bandP _ p hp)
  have hy : ∀ y ∈ (bandP ((canonPairs a cs).filter (fun p => p.1 != Val.vnone))).map Prod.snd,
      y ≠ Val.vnone := by
    intro y hyy
    rw [List.mem_map] at hyy
    obtain ⟨p, hp, rfl⟩ := hyy
    obtain ⟨_, hp2, hp3⟩ := hmem p hp
    rw [hp2]
    exact canonV_ne_vnone a p.1 hp3
  have hC : ∀ p ∈ bandP ((canonPairs a cs).filter (fun p => p.1 != Val.vnone)),
      isTypeDp sConcept ((fun y => (y, canonV b y)) p.2) = isTypeDp sConcept p := by
    intro p hp
    obtain ⟨_, hp2, _⟩ := hmem p hp
    have h := isTypeDp_canon a sConcept p.1 (canonV b p.2) p.2
    rw [← hp2] at h
    exact h
  have hR : ∀ p ∈ bandP ((canonPairs a cs).filter (fun p => p.1 != Val.vnone)),
      isTypeDp sRelation ((fun y => (y, canonV b y)) p.2) = isTypeDp sRelation p := by
    intro p hp
    obtain ⟨_, hp2, _⟩ := hmem p hp
    have h := isTypeDp_canon a sRelation p.1 (canonV b p.2) p.2
    rw [← hp2] at h
    exact h
  rw [filter_pne_canonPairs b _ hy, canonPairs_eq_map, List.map_map]
  rw [show ((fun y => (y, canonV b y)) ∘ Prod.snd)
      = (fun p : Val × Val => (p.2, canonV b p.2)) from rfl] at *
  rw [bandP_map _ _ (fun p hp => hC p hp) (fun p hp => hR p hp), bandP_bandP, List.map_map]
  apply List.map_eq_map_iff.mpr
  intro p hp
  obtain ⟨hp1, hp2, _⟩ := hmem p hp
  show canonV b p.2 = p.2
  rw [hp2]
  exact helem p.1 hp1

theorem contTrans_idem (a b : List Char) (v : Val)
    (hph : noPhV v = true)
    (hidem : canonV b (canonV a v) = canonV a v) :
    contTrans b (contTrans a v) = contTrans a v := by
  cases v with
  | str s => rfl
  | vnone => rfl
  | dict es => rfl
  | list cs =>
    show Val.list ((iSortP ((canonPairs b
        ((iSortP ((canonPairs a cs).filter (fun p => p.1 != Val.vnone))).map
          Prod.snd)).filter (fun p => p.1 != Val.vnone))).map Prod.snd) = _
    rw [sorted_canon_again a b cs hph (canonL_idem_pointwise a b cs hidem)]
    rfl

theorem childTransR_idem (a b : List Char) (v : Val)
    (hidem : canonV b (canonV a v) = canonV a v) :
    childTransR b (childTransR a v) = childTransR a v := by
  cases v with
  | str s => rfl
  | vnone => rfl
  | dict es => rfl
  | list cs =>
    show Val.list (((canonPairs b
        (((canonPairs a cs).filter (fun p => p.1 != Val.vnone)).map
          Prod.snd)).filter (fun p => p.1 != Val.vnone)).map Prod.snd) = _
    rw [filtered_canon_again a b cs (canonL_idem_pointwise a b cs hidem)]
    rfl

theorem childTransC_idem (a b : List Char) (v : Val)
    (hidem : canonV b (canonV a v) = canonV a v) :
    childTransC b (childTransC a v) = childTransC a v := by
  cases v with
  | str s => rfl
  | vnone => rfl
  | dict es => rfl
  | list cs =>
    show Val.list ((bandP ((canonPairs b
        ((bandP ((canonPairs a cs).filter (fun p => p.1 != Val.vnone))).map
          Prod.snd)).filter (fun p => p.1 != Val.vnone))).map Prod.snd) = _
    rw [banded_canon_again a b cs (canonL_idem_pointwise a b cs hidem)]
    rfl

theorem msgEntries_idem (a b : List Char) :
    ∀ es, noPhD es = true →
      (∀ kv ∈ es, noPhV kv.2 = true → canonV b (canonV a kv.2) = canonV a kv.2) →
      msgEntries b (msgEntries a es) = msgEntries a es := by
  intro es
  induction es with
  | nil => intro _ _; simp [msgEntries]
  | cons kv t ih =>
    obtain ⟨k, v⟩ := kv
    intro hph hIH
    have hphh : noPhV v = true ∧ noPhD t = true := by
      rw [show noPhD ((k, v) :: t) = (noPhV v && noPhD t) from rfl, Bool.and_eq_true] at hph
      exact hph
    by_cases hk : k = kContent
    · subst hk
      rw [msgEntries_cons_content, msgEntries_cons_content]
      refine congrArg (fun w => (kContent, w) :: t) ?_
      exact contTrans_idem a b v hphh.1
        (hIH (kContent, v) (List.mem_cons_self _ _) hphh.1)
    · rw [msgEntries_cons_ne a k v t hk, msgEntries_cons_ne b k v _ hk,
        ih hphh.2 (fun kv hkv h => hIH kv (List.mem_cons_of_mem _ hkv) h)]

theorem conceptEntries_idem (a b : List Char) :
    ∀ es, noPhD es = true →
      (∀ kv ∈ es, noPhV kv.2 = true → canonV b (canonV a kv.2) = canonV a kv.2) →
      conceptEntries b (conceptEntries a es) = conceptEntries a es := by
  intro es
  induction es with
  | nil => intro _ _; simp [conceptEntries]
  | cons kv t ih =>
    obtain ⟨k, v⟩ := kv
    intro hph hIH
    have hphh : noPhV v = true ∧ noPhD t = true := by
      rw [show noPhD ((k, v) :: t) = (noPhV v && noPhD t) from rfl, Bool.and_eq_true] at hph
      exact hph
    by_cases hk : k = kChildren
    · subst hk
      rw [conceptEntries_cons_children, conceptEntries_cons_children]
      refine congrArg (fun w => (kChildren, w) :: t) ?_
      exact childTransC_idem a b v
        (hIH (kChildren, v) (List.mem_cons_self _ _) hphh.1)
    · rw [conceptEntries_cons_ne a k v t hk, conceptEntries_cons_ne b k v _ hk,
        ih hphh.2 (fun kv hkv h => hIH kv (List.mem_cons_of_mem _ hkv) h)]

theorem relEntries_idem (a b : List Char) :
    ∀ es, noPhD es = true →
      (∀ kv ∈ es, noPhV kv.2 = true → canonV b (canonV a kv.2) = canonV a kv.2) →
      relEntries b (relEntries a es) = relEntries a es := by
  intro es
  induction es with
  | nil => intro _ _; simp [relEntries]
  | cons kv t ih =>
    obtain ⟨k, v⟩ := kv
    intro hph hIH
    have hphh : noPhV v = true ∧ noPhD t = true := by
      rw [show noPhD ((k, v) :: t) = (noPhV v && noPhD t) from rfl, Bool.and_eq_true] at hph
      exact hph
    by_cases hk : k = kChildren
    · subst hk
      rw [relEntries_cons_children, relEntries_cons_children]
      refine congrArg (fun w => (kChildren, w) :: t) ?_
      exact childTransR_idem a b v
        (hIH (kChildren, v) (List.mem_cons_self _ _) hphh.1)
    · rw [relEntries_cons_ne a k v t hk, relEntries_cons_ne b k v _ hk,
        ih hphh.2 (fun kv hkv h => hIH kv (List.mem_cons_of_mem _ hkv) h)]

theorem walkG_idem (a b : List Char) (v : Val)
    (hidem : canonV b (canonV a v) = canonV a v) :
    walkG b (walkG a v) = walkG a v := by
  cases v with
  | str s => rfl
  | vnone => rfl
  | list xs =>
    show walkG b (canonV a (.list xs)) = canonV a (.list xs)
    rw [canonV_list]
    show canonV b (.list (canonL a xs)) = Val.list (canonL a xs)
    rw [← canonV_list a xs]
    exact hidem
  | dict es =>
    show walkG b (canonV a (.dict es)) = canonV a (.dict es)
    obtain ⟨fs, hfs⟩ := canonV_dict_shape a es
    rw [hfs]
    show canonV b (.dict fs) = Val.dict fs
    rw [← hfs]
    exact hidem

theorem walkEs_idem (a b : List Char) :
    ∀ es, (∀ kv ∈ es, noPhV kv.2 = true → canonV b (canonV a kv.2) = canonV a kv.2) →
      noPhD es = true → walkEs b (walkEs a es) = walkEs a es := by
  intro es
  induction es with
  | nil => intro _ _; simp [walkEs]
  | cons kv t ih =>
    obtain ⟨k, v⟩ := kv
    intro hIH hph
    have hphh : noPhV v = true ∧ noPhD t = true := by
      rw [show noPhD ((k, v) :: t) = (noPhV v && noPhD t) from rfl, Bool.and_eq_true] at hph
      exact hph
    rw [walkEs_cons a, walkEs_cons b, walkG_idem a b v
        (hIH (k, v) (List.mem_cons_self _ _) hphh.1),
      ih (fun kv hkv h => hIH kv (List.mem_cons_of_mem _ hkv) h) hphh.2]

theorem msgEntries_append_one (b : List Char) (k2 : List Char) (v2 : Val)
    (hk2 : k2 ≠ kContent) :
    ∀ ms, msgEntries b (ms ++ [(k2, v2)]) = msgEntries b ms ++ [(k2, v2)]
  | [] => by
    rw [List.nil_append, msgEntries_cons_ne b k2 v2 [] hk2]
    simp [msgEntries]
  | (k, v) :: t => by
    by_cases hk : k = kContent
    · subst hk
      rw [List.cons_append, msgEntries_cons_content, msgEntries_cons_content]
      simp
    · rw [List.cons_append, msgEntries_cons_ne b k v _ hk, msgEntries_cons_ne b k v t hk,
        msgEntries_append_one b k2 v2 hk2 t]
      simp

theorem msgEntries_withDefault_comm (b : List Char) (v0 : Val)
    (ms : List ((List Char) × Val)) :
    msgEntries b (withDefault kVersion v0 ms) = withDefault kVersion v0 (msgEntries b ms) := by
  unfold withDefault
  have hkey : hasKeyEs kVersion (msgEntries b ms) = hasKeyEs kVersion ms := by
    unfold hasKeyEs
    rw [vGetEs_msgEntries_ne b kVersion (by decide)]
  rw [hkey]
  split
  · rfl
  · exact msgEntries_append_one b kVersion v0 (by decide) ms

/-- Main idempotence: on placeholder-complete values the canonicalizer is
idempotent, for any pair of placeholder seeds. -/
theorem canonV_idem (a : List Char) :
    ∀ x, noPhV x = true → ∀ b, canonV b (canonV a x) = canonV a x := by
  intro x
  induction x using Val.myInd with
  | hs s => intro _ b; rw [canonV_str, canonV_str]
  | hn => intro _ b; rw [canonV_vnone, canonV_vnone]
  | hl xs ih =>
    intro hx b
    rw [canonV_list, canonV_list, canonL_eq_map, canonL_eq_map, List.map_map]
    refine congrArg Val.list (List.map_eq_map_iff.mpr ?_)
    intro y hy
    exact ih y hy (noPhL_mem xs hx y hy) b
  | hd es ih =>
    intro hx b
    have hdisp : noPhDispatch es = true := by
      rw [show noPhV (.dict es) = (noPhDispatch es && noPhD es) from rfl,
        Bool.and_eq_true] at hx
      exact hx.1
    have hrec : noPhD es = true := noPhV_dict_snd es hx
    have hIHe : ∀ kv ∈ es, noPhV kv.2 = true → canonV b (canonV a kv.2) = canonV a kv.2 :=
      fun kv hkv h => ih kv hkv h b
    rw [canonV_dict a es]
    by_cases h1 : vGetEs kType es = some (.str sMessage)
    · rw [if_pos h1]
      have htype : vGetEs kType
          (withDefault kVersion (Val.str ['1', '.', '0']) (msgEntries a es))
          = some (.str sMessage) := by
        rw [vGetEs_withDefault_ne kType kVersion _ (by decide),
          vGetEs_msgEntries_ne a kType (by decide)]
        exact h1
      rw [canonV_dict b, if_pos htype, msgEntries_withDefault_comm b _ (msgEntries a es),
        msgEntries_idem a b es hrec hIHe,
        withDefault_of_hasKey kVersion _ _
          (hasKeyEs_withDefault_self kVersion _ (msgEntries a es))]
    · rw [if_neg h1]
      by_cases h2 : vGetEs kType es = some (.str sConcept)
      · rw [if_pos h2]
        have hid : hasKeyEs kId es = true := by
          unfold noPhDispatch at hdisp
          rw [if_pos h2] at hdisp
          exact hdisp
        have hidc : hasKeyEs kId (conceptEntries a es) = true := by
          unfold hasKeyEs
          rw [vGetEs_conceptEntries_ne a kId (by decide)]
          exact hid
        rw [withDefault_of_hasKey _ _ _ hidc]
        have htyc : vGetEs kType (conceptEntries a es) = some (.str sConcept) := by
          rw [vGetEs_conceptEntries_ne a kType (by decide)]
          exact h2
        have hnotm : ¬ vGetEs kType (conceptEntries a es) = some (.str sMessage) := by
          rw [htyc]
          decide
        rw [canonV_dict b, if_neg hnotm, if_pos htyc]
        have hidc2 : hasKeyEs kId (conceptEntries b (conceptEntries a es)) = true := by
          unfold hasKeyEs
          rw [vGetEs_conceptEntries_ne b kId (by decide)]
          exact hidc
        rw [withDefault_of_hasKey _ _ _ hidc2, conceptEntries_idem a b es hrec hIHe]
      · rw [if_neg h2]
        by_cases h3 : vGetEs kType es = some (.str sRelation)
        · rw [if_pos h3]
          have hnm : hasKeyEs kName es = true := by
            unfold noPhDispatch at hdisp
            rw [if_neg h2, if_pos h3] at hdisp
            exact hdisp
          have hnmc : hasKeyEs kName (relEntries a es) = true := by
            unfold hasKeyEs
            rw [vGetEs_relEntries_ne a kName (by decide)]
            exact hnm
          rw [withDefault_of_hasKey _ _ _ hnmc]
          have htyr : vGetEs kType (relEntries a es) = some (.str sRelation) := by
            rw [vGetEs_relEntries_ne a kType (by decide)]
            exact h3
          have hnotm : ¬ vGetEs kType (relEntries a es) = some (.str sMessage) := by
            rw [htyr]
            decide
          have hnotc : ¬ vGetEs kType (relEntries a es) = some (.str sConcept) := by
            rw [htyr]
            decide
          rw [canonV_dict b, if_neg hnotm, if_neg hnotc, if_pos htyr]
          have hnmc2 : hasKeyEs kName (relEntries b (relEntries a es)) = true := by
            unfold hasKeyEs
            rw [vGetEs_relEntries_ne b kName (by decide)]
            exact hnmc
          rw [withDefault_of_hasKey _ _ _ hnmc2, relEntries_idem a b es hrec hIHe]
        · rw [if_neg h3]
          have hmap : ∀ t0 : List Char,
              vGetEs kType (walkEs a es) = some (Val.str t0)
                ↔ vGetEs kType es = some (Val.str t0) := by
            intro t0
            rw [walkEs_eq_map, vGetEs_map_snd]
            cases ho : vGetEs kType es with
            | none => simp
            | some v =>
              show some (walkG a v) = _ ↔ some v = _
              simp only [Option.some.injEq]
              exact walkG_eq_str_iff a v t0
          rw [canonV_dict b, if_neg (fun hc => h1 ((hmap sMessage).mp hc)),
            if_neg (fun hc => h2 ((hmap sConcept).mp hc)),
            if_neg (fun hc => h3 ((hmap sRelation).mp hc)),
            walkEs_idem a b es hIHe hrec]

def c9w : Val :=
  .dict [(kType, .str sMessage),
    (kContent, .list [.dict [(kType, .str sConcept)],
                      .dict [(kType, .str sConcept), (kId, .str ['a'])]])]

/-- C9 counterexample: canonicalization is not idempotent on every IR
value.  A message whose content holds a Concept without an id gets the
placeholder id `concept_0` on the first pass; on the second pass the
content sort uses that id as its key, which reorders the entries, so
canonicalizing twice differs from canonicalizing once (the claim
quantifies over every IR value x). -/
theorem claimC9_counterexample :
    canonicalize ['0'] (canonicalize ['0'] c9w) ≠ canonicalize ['0'] c9w := by
  decide

/-- C9 (amended): canonicalization is idempotent on placeholder-complete
IR: if every Concept dict in the value already carries an `id` entry and
every Relation dict a `name` entry (so no placeholder identifier is
inserted), then re-canonicalizing the canonicalized value - with any
placeholder seed - reproduces it. -/
theorem claimC9_canonicalize_idempotent (a b : List Char) (x : Val)
    (hx : noPhV x = true) :
    canonicalize b (canonicalize a x) = canonicalize a x :=
  canonV_idem a x hx b

def c9x : Val :=
  .dict [(kType, .str sMessage),
    (kContent, .list [.dict [(kType, .str sConcept), (kId, .str ['a'])],
                      .dict [(kType, .str sRelation), (kName, .str ['r'])]])]

theorem claimC9_witness :
    noPhV c9x = true
      ∧ canonicalize ['1'] (canonicalize ['0'] c9x) = canonicalize ['0'] c9x :=
  ⟨by decide, claimC9_canonicalize_idempotent ['0'] ['1'] c9x (by decide)⟩

end LLMCL
